import Mathlib

set_option maxRecDepth 8000

namespace Chamber

/-- Source metadata attached to an embedding (the `EmbeddingSource` value held in the
`source_file` field of `Embedding`; `meta` is the collection of filter tags). -/
structure EmbeddingSource where
  filepath : String
  meta : List String
  subset : Option (Nat × Nat)
deriving DecidableEq

/-- An embedding vector together with its identity and source metadata (`Embedding` in
`openai.rs`); the 32-bit float components are idealized as rationals, and the
fixed-dimension array is modelled as a list (all embeddings of one store share the
dimension `EMBED_DIM`). -/
structure Embedding where
  id : Nat
  data : List ℚ
  source_file : EmbeddingSource
deriving DecidableEq

/-- Rational addition written through `mkRat` so that the kernel can evaluate it on
concrete inputs; `qadd_eq` proves it is the addition of `ℚ`. -/
def qadd (a b : ℚ) : ℚ := mkRat (a.num * b.den + b.num * a.den) (a.den * b.den)

/-- Rational subtraction written through `mkRat`; `qsub_eq` proves it is the
subtraction of `ℚ`. -/
def qsub (a b : ℚ) : ℚ := mkRat (a.num * b.den - b.num * a.den) (a.den * b.den)

/-- Rational multiplication written through `mkRat`; `qmul_eq` proves it is the
multiplication of `ℚ`. -/
def qmul (a b : ℚ) : ℚ := mkRat (a.num * b.num) (a.den * b.den)

theorem qadd_eq (a b : ℚ) : qadd a b = a + b := (Rat.add_def' a b).symm

theorem qsub_eq (a b : ℚ) : qsub a b = a - b := (Rat.sub_def' a b).symm

theorem qmul_eq (a b : ℚ) : qmul a b = a * b := by
  rw [qmul, Rat.mkRat_eq_divInt, Rat.mul_def, Rat.normalize_eq_mkRat, Rat.mkRat_eq_divInt]

/-- Rational powers with a natural exponent, through `qmul`; `qpow_eq` proves it is the
power operation of `ℚ`. -/
def qpow (a : ℚ) : Nat → ℚ
  | 0 => 1
  | n + 1 => qmul a (qpow a n)

theorem qpow_eq (a : ℚ) (n : Nat) : qpow a n = a ^ n := by
  induction n with
  | zero => rfl
  | succ n ih => rw [qpow, qmul_eq, ih, pow_succ, mul_comm]

/-- Dot product of two embeddings (`dot` in `hnsw.rs`): component-wise products summed
over the shared dimension. -/
def dot (a b : Embedding) : ℚ :=
  (List.zipWith qmul a.data b.data).foldr qadd 0

/-- The `dot` of the model is the ordinary dot product over `ℚ`. -/
theorem dot_eq (a b : Embedding) :
    dot a b = (List.zipWith (· * ·) a.data b.data).sum := by
  rw [dot]
  have h : List.zipWith qmul a.data b.data = List.zipWith (· * ·) a.data b.data := by
    have hf : qmul = (· * ·) := funext fun x => funext fun y => qmul_eq x y
    rw [hf]
  rw [h]
  induction List.zipWith (· * ·) a.data b.data with
  | nil => rfl
  | cons x xs ih => rw [List.foldr_cons, ih, qadd_eq, List.sum_cons]

/-- Comparator of a metadata filter (`FilterComparator` in `hnsw.rs`). -/
inductive FilterComparator
  | equal
  | notEqual
deriving DecidableEq

/-- A metadata filter (`Filter` in `hnsw.rs`). -/
structure Filter where
  comparator : FilterComparator
  value : String
deriving DecidableEq

/-- Comparison of a filter against one metadata tag (`Filter::compare` in `hnsw.rs`). -/
def Filter.compare (f : Filter) (query : String) : Bool :=
  match f.comparator with
  | .equal => query == f.value
  | .notEqual => query != f.value

/-- A query embedding together with its filters (`Query` in `hnsw.rs`). -/
structure Query where
  embedding : Embedding
  filters : List Filter

/-- One HNSW layer: a map from an embedding id to its ordered neighbor list, stored as an
association list (`type Graph = HashMap<u64, Vec<(u64, f32)>>` in `hnsw.rs`). -/
abbrev Graph := List (Nat × List (Nat × ℚ))

/-- The embedding cache, idealized as a total lookup from id to embedding: the claims
settled here only exercise `EmbeddingCache::get` on ids present in the store. -/
abbrev Cache := Nat → Embedding

/-- Map lookup on a layer (`HashMap::get`): first matching key. -/
def Graph.get : Graph → Nat → Option (List (Nat × ℚ))
  | [], _ => none
  | (k, v) :: rest, n => if k = n then some v else Graph.get rest n

/-- The `layer.entry(id).or_insert(Vec::new()).push(v)` pattern from
`HNSW::insert_into_layer`: append `v` to the neighbor list of `k`, creating the entry
when absent. -/
def Graph.entryAppend : Graph → Nat → (Nat × ℚ) → Graph
  | [], k, v => [(k, [v])]
  | (k', l) :: rest, k, v =>
      if k' = k then (k', l ++ [v]) :: rest else (k', l) :: Graph.entryAppend rest k v

/-- The `*layer.entry(id).or_insert(Vec::new()) = v` pattern: replace the neighbor list
of `k`, creating the entry when absent. -/
def Graph.setEntry : Graph → Nat → List (Nat × ℚ) → Graph
  | [], k, v => [(k, v)]
  | (k', l) :: rest, k, v =>
      if k' = k then (k', v) :: rest else (k', l) :: Graph.setEntry rest k v

/-- The check whether every `(filter, tag)` pair of the cartesian product passes
(the `filter_pass` conjunction inside `HNSW::query`). -/
def filtersPass (filters : List Filter) (meta : List String) : Bool :=
  filters.all fun f => meta.all fun m => f.compare m

/-- Stable insertion of a `(node, distance)` pair into a distance-sorted list: the new
element goes after existing elements of equal distance, matching `Vec::sort_by` with
`partial_cmp` on the distance (a stable sort). -/
def insDist (x : Nat × ℚ) : List (Nat × ℚ) → List (Nat × ℚ)
  | [] => [x]
  | y :: ys => if y.2 ≤ x.2 then y :: insDist x ys else x :: y :: ys

/-- Stable ascending sort by distance, the `sort_by(|a, b| a.1.partial_cmp(&b.1))`
appearing in `HNSW::query` and `reblock`. -/
def sortByDist (l : List (Nat × ℚ)) : List (Nat × ℚ) :=
  l.foldl (fun acc x => insDist x acc) []

/-- Strict lexicographic order on `(distance, id)` heap keys, the derived `Ord` of
`(OrderedFloat<f32>, u64)` used by the binary heaps of `HNSW::insert_into_layer`. -/
def lexLt (a b : ℚ × Nat) : Bool :=
  a.1 < b.1 || (a.1 = b.1 && a.2 < b.2)

/-- Insertion into a lexicographically ascending list of `(distance, id)` keys. -/
def insLex (x : ℚ × Nat) : List (ℚ × Nat) → List (ℚ × Nat)
  | [] => [x]
  | y :: ys => if lexLt x y then x :: y :: ys else y :: insLex x ys

/-- Ascending sort of `(distance, id)` keys (`BinaryHeap::into_sorted_vec`). -/
def sortLex (l : List (ℚ × Nat)) : List (ℚ × Nat) :=
  l.foldl (fun acc x => insLex x acc) []

example : sortByDist [(1, (3 : ℚ)), (2, 1), (3, 2)] = [(2, 1), (3, 2), (1, 3)] := by decide

example : sortLex [((3 : ℚ), 1), (1, 2), (1, 1)] = [(1, 1), (1, 2), (3, 1)] := by decide

example : Graph.entryAppend [(1, [])] 1 (2, 5) = [(1, [(2, 5)])] := by decide

/-- Comparison `d < furthest_dist` where the absent maximum is `f32::MAX`
(`results.peek().map(..).unwrap_or(f32::MAX)` in `HNSW::insert_into_layer`): against the
sentinel every finite distance is smaller. -/
def ltFurthest (d : ℚ) (f : Option ℚ) : Bool :=
  match f with
  | some f => decide (d < f)
  | none => true

/-- Comparison `curr_dist > furthest_dist` with the same `f32::MAX` sentinel: nothing
exceeds the sentinel. -/
def gtFurthest (d : ℚ) (f : Option ℚ) : Bool :=
  match f with
  | some f => decide (f < d)
  | none => false

/-- The neighbor scan of one popped candidate in `HNSW::insert_into_layer`: walk the
popped node's edge list, skip visited ids, mark the rest visited, score them against the
query, and push those that qualify into both heaps, popping the worst retained result
when `results` exceeds `ef`. `furthest` is the worst retained distance read once before
the scan (the code does not refresh it inside the loop). The heaps are modelled as
lexicographically ascending lists of `(distance, id)` keys. -/
def processEdges (cache : Cache) (q : Embedding) (ef : Nat) (layer : Graph)
    (furthest : Option ℚ) :
    List (Nat × ℚ) → List (ℚ × Nat) → List (ℚ × Nat) → List Nat →
    List (ℚ × Nat) × List (ℚ × Nat) × List Nat
  | [], cands, results, vis => (cands, results, vis)
  | (nid, _) :: rest, cands, results, vis =>
      if nid ∈ vis then processEdges cache q ef layer furthest rest cands results vis
      else
        let vis' := nid :: vis
        let nd := qsub 1 (dot q (cache nid))
        if results.length < ef || ltFurthest nd furthest then
          let cands' := insLex (nd, nid) cands
          let results' := insLex (nd, nid) results
          let results'' := if ef < results'.length then results'.dropLast else results'
          processEdges cache q ef layer furthest rest cands' results'' vis'
        else
          processEdges cache q ef layer furthest rest cands results vis'

/-- The ef-greedy best-first search loop of `HNSW::insert_into_layer`: repeatedly pop
the closest candidate, stop when it is farther than the worst retained result, and
otherwise expand its neighbors. `fuel` bounds the iteration count (the code's loop
terminates because every heap push is guarded by the visited set); `none` means the
fuel ran out before the loop finished. -/
def searchLoop (cache : Cache) (q : Embedding) (ef : Nat) (layer : Graph) :
    Nat → List (ℚ × Nat) → List (ℚ × Nat) → List Nat → Option (List (ℚ × Nat))
  | 0, _, _, _ => none
  | fuel + 1, cands, results, vis =>
      match cands with
      | [] => some results
      | (cd, cid) :: rest =>
          let furthest := results.getLast?.map Prod.fst
          if gtFurthest cd furthest then some results
          else
            let edges := (Graph.get layer cid).getD []
            match processEdges cache q ef layer furthest edges rest results vis with
            | (cands', results', vis') => searchLoop cache q ef layer fuel cands' results' vis'

/-- The post-processing of `HNSW::insert_into_layer`: iterate the sorted retained
results, append a back-edge `(q.id, d)` to each retained neighbor's list, and set the
new node's list to the retained results in ascending order. -/
def finalize (layer : Graph) (qid : Nat) (rs : List (ℚ × Nat)) : Graph :=
  let layer' := rs.foldl (fun l p => Graph.entryAppend l p.2 (qid, p.1)) layer
  Graph.setEntry layer' qid (rs.map fun p => (p.2, p.1))

/-- `HNSW::insert_into_layer`: an empty layer just receives the new node with an empty
neighbor list; otherwise the ef-greedy search runs from the entry node and the sorted
retained results become the new node's neighborhood, with back-edges. -/
def insert_into_layer (cache : Cache) (entry_id : Nat) (layer : Graph) (q : Embedding)
    (ef fuel : Nat) : Option Graph :=
  if layer = [] then some (layer ++ [(q.id, [])])
  else
    match searchLoop cache q ef layer fuel
        [(qsub 1 (dot q (cache entry_id)), entry_id)]
        [(qsub 1 (dot q (cache entry_id)), entry_id)] [entry_id] with
    | none => none
    | some results => some (finalize layer q.id (sortLex results))

/-- The distinguishable panics of `HNSW::query`: `oob` is an out-of-bounds access on the
`visited`/`blacklist` vectors (including the `n - 1` underflow on id `0`), `efLtK` is the
explicit `panic!("ef must be greater than k")`, and `entryNone` is
`self.entry_id.unwrap()` on a `None` entry. -/
inductive PanicKind
  | oob
  | efLtK
  | entryNone
deriving DecidableEq

/-- The outcome of `HNSW::query`. The code has two normal return sites returning the same
type; the model tags which one executed: `final` is the return after the layer descent
(which maps a stored id `n` to `cache.get(n + 1)`), `early` is the short-circuit return
taken when the candidate counter reaches `ef` (which maps a stored id `n` to
`cache.get(n)`). `fuelOut` means the traversal fuel ran out. -/
inductive QOut
  | final (res : List (Embedding × ℚ))
  | early (res : List (Embedding × ℚ))
  | panicked (p : PanicKind)
  | fuelOut
deriving DecidableEq

/-- The `filter_map` over the popped node's neighbor list in `HNSW::query`: for each
edge `(n, _)` the code computes `n - 1`, consults the blacklist, fetches the embedding
`n` back through the cache, evaluates all filters against all of its tags, and either
yields `(n - 1, distance)` or blacklists `n - 1`. The blacklist updates are visible to
the later edges of the same list. `none` models an out-of-bounds vector access. -/
def neighborScan (cache : Cache) (qry : Query) :
    List (Nat × ℚ) → List Bool → List Bool → Option (List (Nat × ℚ) × List Bool)
  | [], bl, _ => some ([], bl)
  | (n, _) :: rest, bl, vis =>
      if n = 0 then none
      else
        let n' := n - 1
        match bl.get? n' with
        | none => none
        | some b =>
            if b then neighborScan cache qry rest bl vis
            else
              let e := cache (n' + 1)
              let pass := filtersPass qry.filters e.source_file.meta
              match vis.get? n' with
              | none => none
              | some v =>
                  if !v && pass then
                    match neighborScan cache qry rest bl vis with
                    | none => none
                    | some (l, bl') =>
                        some ((n', qsub 1 (dot qry.embedding e)) :: l, bl')
                  else
                    neighborScan cache qry rest (bl.set n' true) vis

/-- The `top_k` pruning block of `HNSW::query`: when `top_k` exceeds `k` entries, sort
ascending by distance and pop the largest until `k` remain. -/
def prune (k : Nat) (l : List (Nat × ℚ)) : List (Nat × ℚ) :=
  if k < l.length then (sortByDist l).take k else l

/-- The `for (neighbor, distance) in neighbors` loop of `HNSW::query`: admit each
unvisited, unblacklisted scored neighbor while `count < ef` (appending it to `top_k`,
pushing it on the stack, marking it visited), prune `top_k` to its `k` smallest
distances whenever it exceeds `k`, and short-circuit with the mapped `top_k` as soon as
`count ≥ ef` — fetching `cache.get(node)` without restoring the `+ 1`. -/
def pushLoop (cache : Cache) (k ef : Nat) :
    List (Nat × ℚ) → List Bool → List Bool → List (Nat × ℚ) → Nat → List Nat →
    Option ((List Bool × List (Nat × ℚ) × Nat × List Nat) ⊕ List (Embedding × ℚ))
  | [], vis, _, topK, count, stack => some (.inl (vis, topK, count, stack))
  | (nb, d) :: rest, vis, bl, topK, count, stack =>
      match vis.get? nb, bl.get? nb with
      | some v, some b =>
          if !v && !b && decide (count < ef) then
            if ef ≤ count + 1 then
              some (.inr ((prune k (topK ++ [(nb, d)])).map fun p => (cache p.1, p.2)))
            else
              pushLoop cache k ef rest (vis.set nb true) bl
                (prune k (topK ++ [(nb, d)])) (count + 1) (nb :: stack)
          else
            if ef ≤ count then
              some (.inr ((prune k topK).map fun p => (cache p.1, p.2)))
            else
              pushLoop cache k ef rest vis bl (prune k topK) count stack
      | _, _ => none

/-- Result of the per-layer `while !stack.is_empty()` traversal of `HNSW::query`:
either the loop drains the stack (`cont`, carrying the mutated state and the last
popped node, which the code leaves in `current`), or the short-circuit return fires
(`early`), or a vector access panics, or the fuel runs out. -/
inductive WOut
  | cont (vis bl : List Bool) (topK : List (Nat × ℚ)) (count : Nat) (current : Nat)
  | early (res : List (Embedding × ℚ))
  | panicked
  | fuelOut
deriving DecidableEq

/-- The per-layer stack traversal of `HNSW::query`: pop a node, look up its neighbor
list (a missing key just continues), scan and sort the qualifying neighbors by
ascending distance, then run the admission loop. -/
def whileStack (cache : Cache) (qry : Query) (k ef : Nat) (layer : Graph) :
    Nat → List Nat → List Bool → List Bool → List (Nat × ℚ) → Nat → Nat → WOut
  | 0, _, _, _, _, _, _ => .fuelOut
  | fuel + 1, stack, vis, bl, topK, count, current =>
      match stack with
      | [] => .cont vis bl topK count current
      | c :: rest =>
          match Graph.get layer c with
          | none => whileStack cache qry k ef layer fuel rest vis bl topK count c
          | some edges =>
              match neighborScan cache qry edges bl vis with
              | none => .panicked
              | some (scanned, bl') =>
                  let sorted := sortByDist scanned
                  match pushLoop cache k ef sorted vis bl' topK count rest with
                  | none => .panicked
                  | some (.inr res) => .early res
                  | some (.inl (vis', topK', count', stack')) =>
                      whileStack cache qry k ef layer fuel stack' vis' bl' topK' count' c

/-- The layer descent of `HNSW::query` (`for layer in self.layers.iter().rev()`): the
argument list is already reversed, an empty layer is skipped, each non-empty layer is
traversed from a stack seeded with `current`, and between layers `top_k` is sorted and
its best stored id becomes the next `current` (kept as the last popped node when
`top_k` is empty). After the last layer the final return sorts `top_k` and maps a
stored id `n` to `cache.get(n + 1)`. -/
def layersLoop (cache : Cache) (qry : Query) (k ef fuel : Nat) :
    List Graph → List Bool → List Bool → List (Nat × ℚ) → Nat → Nat → QOut
  | [], _, _, topK, _, _ =>
      .final ((sortByDist topK).map fun p => (cache (p.1 + 1), p.2))
  | layer :: restLayers, vis, bl, topK, count, current =>
      if layer = [] then layersLoop cache qry k ef fuel restLayers vis bl topK count current
      else
        match whileStack cache qry k ef layer fuel [current] vis bl topK count current with
        | .panicked => .panicked .oob
        | .fuelOut => .fuelOut
        | .early res => .early res
        | .cont vis' bl' topK' count' current' =>
            let sortedK := sortByDist topK'
            match sortedK.head? with
            | some p => layersLoop cache qry k ef fuel restLayers vis' bl' sortedK count' p.1
            | none => layersLoop cache qry k ef fuel restLayers vis' bl' sortedK count' current'

/-- The HNSW index state (`struct HNSW` in `hnsw.rs`): node count, layers from top
(index 0, sparsest) to bottom, the search entry id, and the per-layer thresholds. -/
structure HNSWState where
  size : Nat
  layers : List Graph
  entry_id : Option Nat
  thresholds : List ℚ
deriving DecidableEq

/-- `HNSW::query`: an empty layer vector returns the empty result; `ef < k` hits the
explicit `panic!`; otherwise the `visited` and `blacklist` vectors are allocated with
`size` entries, the entry id is unwrapped, and the layer descent runs bottom-up
(`iter().rev()`). -/
def queryFn (fuel : Nat) (h : HNSWState) (cache : Cache) (qry : Query) (k ef : Nat) :
    QOut :=
  if h.layers = [] then .final []
  else if ef < k then .panicked .efLtK
  else
    match h.entry_id with
    | none => .panicked .entryNone
    | some e =>
        layersLoop cache qry k ef fuel h.layers.reverse
          (List.replicate h.size false) (List.replicate h.size false) [] 0 e

def scratchE0 : Embedding := ⟨0, [], ⟨"", [], none⟩⟩

def scratchE1 : Embedding := ⟨1, [1, 0], ⟨"a", ["other"], none⟩⟩

def scratchE2 : Embedding := ⟨2, [1, 0], ⟨"b", ["tag"], none⟩⟩

def scratchCache1 : Cache := fun n => if n = 1 then scratchE1 else if n = 2 then scratchE2 else scratchE0

def scratchS1 : HNSWState := ⟨2, [[(1, [(2, 0)]), (2, [(1, 0)])]], some 1, [1]⟩

def scratchQ1 : Query := ⟨⟨0, [1, 0], ⟨"", [], none⟩⟩, [⟨.equal, "tag"⟩]⟩

example : queryFn 100 scratchS1 scratchCache1 scratchQ1 1 1 = .early [(scratchE1, 0)] := by decide

example : filtersPass scratchQ1.filters scratchE1.source_file.meta = false := by decide

def scratchF1 : Embedding := ⟨1, [0, 1], ⟨"a", [], none⟩⟩

def scratchF2 : Embedding := ⟨2, [mkRat 1 2, 0], ⟨"b", [], none⟩⟩

def scratchF3 : Embedding := ⟨3, [mkRat 3 4, 0], ⟨"c", [], none⟩⟩

def scratchF4 : Embedding := ⟨4, [mkRat 1 4, 0], ⟨"d", [], none⟩⟩

def scratchCache2 : Cache := fun n =>
  if n = 1 then scratchF1 else if n = 2 then scratchF2
  else if n = 3 then scratchF3 else if n = 4 then scratchF4 else scratchE0

def scratchS2 : HNSWState :=
  ⟨4, [[(1, [(3, 1), (4, 1)]), (2, [(3, mkRat 5 8)]),
    (3, [(2, mkRat 5 8), (1, 1)]), (4, [(1, 1)])]], some 1, [1]⟩

def scratchQ2 : Query := ⟨⟨0, [1, 0], ⟨"", [], none⟩⟩, []⟩

example :
    queryFn 100 scratchS2 scratchCache2 scratchQ2 3 3 =
      .early [(scratchF2, mkRat 1 4), (scratchF3, mkRat 3 4),
        (scratchF1, mkRat 1 2)] := by decide

example : queryFn 10 ⟨0, [], none, []⟩ scratchCache1 scratchQ1 1 0 = .final [] := by decide

/-- Helper for `ilog2`: structurally recursive base-2 logarithm with a fuel argument
large enough to cover the input. -/
def log2fuel : Nat → Nat → Nat
  | 0, _ => 0
  | fuel + 1, n => if n < 2 then 0 else log2fuel fuel (n / 2) + 1

/-- The `u32::ilog2` of the code (floor of the base-2 logarithm for positive inputs),
written structurally so the kernel can evaluate it; `ilog2_eq` identifies it with
`Nat.log2`. -/
def ilog2 (n : Nat) : Nat := log2fuel n n

theorem log2fuel_eq (fuel n : Nat) (h : n ≤ fuel) : log2fuel fuel n = Nat.log2 n := by
  induction fuel generalizing n with
  | zero =>
      have hn : n = 0 := Nat.le_zero.mp h
      subst hn
      rw [Nat.log2]
      simp [log2fuel]
  | succ fuel ih =>
      rw [log2fuel, Nat.log2]
      by_cases h2 : n < 2
      · have : ¬ n ≥ 2 := by omega
        simp [this, h2]
      · have hge : n ≥ 2 := by omega
        have hdiv : n / 2 ≤ fuel := by
          have := Nat.div_lt_self (by omega : 0 < n) (by omega : 1 < 2)
          omega
        simp [hge, h2, ih _ hdiv]

theorem ilog2_eq (n : Nat) : ilog2 n = Nat.log2 n := log2fuel_eq n n (Nat.le_refl n)

/-- The per-layer threshold schedule shared by `HNSW::new` and `HNSW::insert`:
`(0..l).map(|j| p * (1.0 - p).powi((j - l + 1).abs())).rev()`. -/
def thresholdSchedule (l : Nat) (p : ℚ) : List ℚ :=
  ((List.range l).map fun (j : Nat) =>
    qmul p (qpow (qsub 1 p) ((j : ℤ) - l + 1).natAbs)).reverse

/-- The threshold schedule written with the ordinary field operations of `ℚ`, as in the
specification's formula. -/
theorem thresholdSchedule_eq (l : Nat) (p : ℚ) :
    thresholdSchedule l p =
      ((List.range l).map fun (j : Nat) =>
        p * (1 - p) ^ ((j : ℤ) - l + 1).natAbs).reverse := by
  rw [thresholdSchedule]
  congr 1
  apply List.map_congr_left
  intro j _
  rw [qmul_eq, qpow_eq, qsub_eq]

/-- The per-layer insertion pass shared by `HNSW::new` and `HNSW::insert`: for every
layer index `j` the code evaluates `prob < self.thresholds[j] || self.entry_id.is_none()`
(the indexing panics when the schedule is shorter than the layer vector, modelled by
`none`) and, when it holds, inserts the embedding into that layer via
`insert_into_layer` with the current entry id (or the embedding itself when no entry
exists yet). `ef` is the hard-coded 200 of the code. -/
def insertLoop (cache : Cache) (emb : Embedding) (fuel : Nat) (entry : Option Nat)
    (thr : List ℚ) (prob : ℚ) : Nat → List Graph → Option (List Graph)
  | _, [] => some []
  | j, layer :: rest =>
      match thr.get? j with
      | none => none
      | some t =>
          let doIns := decide (prob < t) || entry.isNone
          let layerStep :=
            if doIns then insert_into_layer cache (entry.getD emb.id) layer emb 200 fuel
            else some layer
          match layerStep with
          | none => none
          | some layer2 =>
              match insertLoop cache emb fuel entry thr prob (j + 1) rest with
              | none => none
              | some rest2 => some (layer2 :: rest2)

/-- `HNSW::insert`: when the layer vector is empty or outgrown by `⌊log₂ size⌋` the code
appends a new top layer seeded with the entry id, recomputing the thresholds from
`log = max(1, max(1, size).ilog2())` and `p = 1/log` (note `u32::ilog2` panics on zero,
modelled by `none` when `size = 0` with non-empty layers); then the sampled probability
is compared against every layer's threshold and the embedding inserted accordingly,
the entry id is set if absent, and `size` is incremented. `prob` stands for the value
drawn from the process RNG. -/
def insertOp (cache : Cache) (prob : ℚ) (emb : Embedding) (fuel : Nat)
    (s : HNSWState) : Option HNSWState :=
  let growCheck : Option Bool :=
    if s.layers = [] then some true
    else if s.size = 0 then none
    else some (decide (s.layers.length < ilog2 s.size))
  match growCheck with
  | none => none
  | some grow =>
      let st :=
        if grow then
          let n := max 1 s.size
          let log := max 1 (ilog2 n)
          let p : ℚ := mkRat 1 log
          let newLayer : Graph :=
            match s.entry_id with
            | some e => [(e, [])]
            | none => []
          (s.layers ++ [newLayer], thresholdSchedule log p)
        else (s.layers, s.thresholds)
      match st with
      | (layers0, thresholds0) =>
          match insertLoop cache emb fuel s.entry_id thresholds0 prob 0 layers0 with
          | none => none
          | some layers1 =>
              some ⟨s.size + 1, layers1, some (s.entry_id.getD emb.id), thresholds0⟩

/-- The inner erasure loop of `HNSW::remove_node`: for each `(neighbor, _)` in the
removed node's cloned neighbor list, `layers[i].get_mut(&neighbor).unwrap()` (panicking
when the neighbor is not a key, modelled by `none`) and retain only the edges not
pointing at the target. -/
def removeEdges (t : Nat) : List (Nat × ℚ) → Graph → Option Graph
  | [], layer => some layer
  | (nbr, _) :: rest, layer =>
      match Graph.get layer nbr with
      | none => none
      | some lst =>
          removeEdges t rest (Graph.setEntry layer nbr (lst.filter fun p => p.1 ≠ t))

/-- Phase one of `HNSW::remove_node` on one layer: layers not containing the target are
untouched; otherwise each neighbor of the target loses its edges to the target. -/
def removeNodeLayer (t : Nat) (layer : Graph) : Option Graph :=
  match Graph.get layer t with
  | none => some layer
  | some lst => removeEdges t lst layer

/-- Phase two of `HNSW::remove_node`: `layer.retain(|k, _| *k != target_id)`. -/
def dropKey (t : Nat) (layer : Graph) : Graph :=
  layer.filter fun p => p.1 ≠ t

/-- Sequence an option-producing map over a list, failing when any element fails. -/
def optMapList (f : α → Option β) : List α → Option (List β)
  | [] => some []
  | x :: rest =>
      match f x with
      | none => none
      | some y =>
          match optMapList f rest with
          | none => none
          | some ys => some (y :: ys)

/-- `HNSW::remove_node`: erase all edges from the target's neighbors back to the target
in every layer containing it, then delete the target's own entry from every layer, and
decrement `size` (which underflows — panics — on a size-zero index, modelled by
`none`). The entry id is left untouched. -/
def removeOp (t : Nat) (s : HNSWState) : Option HNSWState :=
  if s.size = 0 then none
  else
    match optMapList (removeNodeLayer t) s.layers with
    | none => none
    | some layers1 =>
        some ⟨s.size - 1, layers1.map (dropKey t), s.entry_id, s.thresholds⟩

/-- The per-id body of the build loop of `HNSW::new(reindex = true)`: each directory id
is fetched through the cache, inserted into every layer whose threshold admits the
sampled probability (or into all of them while no entry exists), and becomes the entry
if none was set. The ids are paired with their sampled probabilities; the map iteration
order of the directory is reflected by the list order. -/
def buildLoop (cache : Cache) (fuel : Nat) (thr : List ℚ) :
    List (Nat × ℚ) → Option Nat → List Graph → Option (List Graph × Option Nat)
  | [], entry, layers => some (layers, entry)
  | (id, prob) :: rest, entry, layers =>
      let emb := cache id
      match insertLoop cache emb fuel entry thr prob 0 layers with
      | none => none
      | some layers2 => buildLoop cache fuel thr rest (some (entry.getD emb.id)) layers2

/-- `HNSW::new(reindex = true)`: an empty directory yields the empty index; otherwise
`l = m = n.ilog2()`, `p = 1/m` (when `m = 0` no layer exists and `p` is never used, so
the `1.0/0` of the float code is modelled by the `ℚ` convention `1/0 = 0`), the
threshold schedule is computed, `l` empty layers are allocated, and the directory ids
are folded through the insertion loop. The final size is the directory length. -/
def buildOp (cache : Cache) (fuel : Nat) (idprobs : List (Nat × ℚ)) :
    Option HNSWState :=
  if idprobs = [] then some ⟨0, [], none, []⟩
  else
    let n := idprobs.length
    let l := ilog2 n
    let p : ℚ := mkRat 1 l
    let thr := thresholdSchedule l p
    match buildLoop cache fuel thr idprobs none (List.replicate l []) with
    | none => none
    | some (layers, entry) => some ⟨n, layers, entry, thr⟩

/-- Index states reachable through the public operations, with the id discipline of the
store: inserted embeddings carry ids freshly allocated by the monotonically increasing
id counter, so they are keys of no current layer and differ from the current entry id,
and a rebuild reads directory entries with distinct ids whose cached embeddings carry
those very ids. The sampled probabilities and the traversal fuel are arbitrary. -/
inductive Reachable (cache : Cache) : HNSWState → Prop
  | empty : Reachable cache ⟨0, [], none, []⟩
  | insert {s s' : HNSWState} (prob : ℚ) (emb : Embedding) (fuel : Nat) :
      Reachable cache s →
      (∀ layer ∈ s.layers, Graph.get layer emb.id = none) →
      (∀ e, s.entry_id = some e → emb.id ≠ e) →
      insertOp cache prob emb fuel s = some s' →
      Reachable cache s'
  | remove {s s' : HNSWState} (t : Nat) :
      Reachable cache s →
      removeOp t s = some s' →
      Reachable cache s'
  | build {s' : HNSWState} (idprobs : List (Nat × ℚ)) (fuel : Nat) :
      (idprobs.map Prod.fst).Nodup →
      (∀ pr ∈ idprobs, (cache pr.1).id = pr.1) →
      buildOp cache fuel idprobs = some s' →
      Reachable cache s'

def scratchG1 : Embedding := ⟨1, [1, 0], ⟨"g1", [], none⟩⟩

def scratchG2 : Embedding := ⟨2, [0, 1], ⟨"g2", [], none⟩⟩

def scratchG3 : Embedding := ⟨3, [mkRat 3 5, mkRat 4 5], ⟨"g3", [], none⟩⟩

def scratchGCache : Cache := fun n =>
  if n = 1 then scratchG1 else if n = 2 then scratchG2
  else if n = 3 then scratchG3 else scratchE0

example : insertOp scratchGCache 0 scratchG1 50 ⟨0, [], none, []⟩ =
    some ⟨1, [[(1, [])]], some 1, [1]⟩ := by decide

example : insertOp scratchGCache 0 scratchG2 50 ⟨1, [[(1, [])]], some 1, [1]⟩ =
    some ⟨2, [[(1, [(2, 1)]), (2, [(1, 1)])]], some 1, [1]⟩ := by decide

example : insertOp scratchGCache 0 scratchG3 50
      ⟨2, [[(1, [(2, 1)]), (2, [(1, 1)])]], some 1, [1]⟩ =
    some ⟨3, [[(1, [(2, 1), (3, mkRat 2 5)]), (2, [(1, 1), (3, mkRat 1 5)]),
      (3, [(2, mkRat 1 5), (1, mkRat 2 5)])]], some 1, [1]⟩ := by decide

example : removeOp 2 ⟨3, [[(1, [(2, 1), (3, mkRat 2 5)]), (2, [(1, 1), (3, mkRat 1 5)]),
      (3, [(2, mkRat 1 5), (1, mkRat 2 5)])]], some 1, [1]⟩ =
    some ⟨2, [[(1, [(3, mkRat 2 5)]), (3, [(1, mkRat 2 5)])]], some 1, [1]⟩ := by decide

example : queryFn 50 ⟨2, [[(1, [(3, mkRat 2 5)]), (3, [(1, mkRat 2 5)])]], some 1, [1]⟩
      scratchGCache ⟨⟨0, [1, 0], ⟨"", [], none⟩⟩, []⟩ 1 10 = .panicked .oob := by decide

/-- The fixed maximum number of embeddings per block file (`BLOCK_SIZE` in `dbio.rs`). -/
def BLOCK_SIZE : Nat := 1024

/-- Append `x` to the `i`-th id block (`blocks[i].push(current)` in `reblock`). -/
def pushBlock : List (List Nat) → Nat → Nat → List (List Nat)
  | [], _, _ => []
  | b :: rest, 0, x => (b ++ [x]) :: rest
  | b :: rest, i + 1, x => b :: pushBlock rest i x

/-- Length of the `i`-th id block (`blocks[i].len()` in `reblock`). -/
def getBlockLen : List (List Nat) → Nat → Nat
  | [], _ => 0
  | b :: _, 0 => b.length
  | _ :: rest, i + 1 => getBlockLen rest i

/-- One step of the DFS body of `reblock` for an unvisited popped node: start a new
target block when the current one holds `BLOCK_SIZE` ids, commit the node, mark it
visited, and push its unvisited neighbors in ascending-distance order. Returns the new
blocks, block index, visited set and stack; `none` is the `unwrap` panic on a node
missing from the layer. -/
def reblockStep (g : Graph) (current : Nat) (rest visited : List Nat)
    (blocks : List (List Nat)) (i : Nat) :
    Option (List (List Nat) × Nat × List Nat × List Nat) :=
  match Graph.get g current with
  | none => none
  | some nbrs =>
      match
        (if BLOCK_SIZE ≤ getBlockLen blocks i then (blocks ++ [[]], i + 1)
          else (blocks, i)) with
      | (blocks1, i1) =>
          some (pushBlock blocks1 i1 current, i1, current :: visited,
            (sortByDist nbrs).foldl
              (fun st p => if p.1 ∈ current :: visited then st else p.1 :: st) rest)

/-- The depth-first packing walk of `reblock` over the HNSW bottom layer: pop a node,
skip it when already visited, otherwise run the step above and recurse. The stack is
modelled with its top at the head; `fuel` bounds the iteration count. -/
def reblockLoop (g : Graph) :
    Nat → List Nat → List Nat → List (List Nat) → Nat → Option (List (List Nat))
  | 0, _, _, _, _ => none
  | fuel + 1, stack, visited, blocks, i =>
      match stack with
      | [] => some blocks
      | current :: rest =>
          if current ∈ visited then reblockLoop g fuel rest visited blocks i
          else
            match reblockStep g current rest visited blocks i with
            | none => none
            | some (blocks2, i2, visited2, stack2) =>
                reblockLoop g fuel stack2 visited2 blocks2 i2

/-- The ledger consulted by `reblock` to refresh metadata, as a partial map from
filepath to tag set. -/
abbrev Ledger := String → Option (List String)

/-- The metadata refresh of `reblock`: replace the tag set by the ledger's entry for
the filepath, keeping the prior tags when the ledger has none. -/
def refreshMeta (ledger : Ledger) (e : Embedding) : Embedding :=
  match ledger e.source_file.filepath with
  | some m => { e with source_file := { e.source_file with meta := m } }
  | none => e

/-- The on-disk block files, as the list of decoded embedding sequences indexed by
block number (block `j` is entry `j`). -/
abbrev BlockStore := List (List Embedding)

/-- Structural chunking helper, with fuel covering the list length. -/
def chunksGo (n : Nat) : Nat → List α → List (List α)
  | _, [] => []
  | 0, _ :: _ => []
  | fuel + 1, x :: xs => ((x :: xs).take n) :: chunksGo n fuel ((x :: xs).drop n)

/-- `slice::chunks(n)`: split a list into consecutive chunks of `n` elements, the last
one possibly shorter. -/
def chunks (n : Nat) (l : List α) : List (List α) := chunksGo n l.length l

/-- `sync_index`: after embedding the stale sources the code deletes every numeric
block file and rewrites the whole corpus as consecutive `BLOCK_SIZE` chunks (the
directory write does not affect the block files). The embedded corpus is the operation's
parameter. -/
def syncOp (embs : List Embedding) (_ : BlockStore) : BlockStore :=
  chunks BLOCK_SIZE embs

/-- `add_new_embedding`: the block with the highest number (the last one; block `0` is
created when none exist) receives the new embedding at its end, with no splitting. -/
def addOp (e : Embedding) : BlockStore → BlockStore
  | [] => [[e]]
  | [b] => [b ++ [e]]
  | b :: rest => b :: addOp e rest

/-- `reblock` as a block-store operation: a missing bottom layer is a no-op; an empty
bottom layer hits `iter().nth(0).unwrap()` (`none`); otherwise the DFS packs the visit
order into id blocks of at most `BLOCK_SIZE`, each id is fetched through the cache,
its metadata refreshed from the ledger, and the resulting blocks replace the store.
`start` is the arbitrary first key the `HashMap` iteration yields. -/
def reblockOp (layers : List Graph) (start : Nat) (cache : Cache) (ledger : Ledger)
    (fuel : Nat) (st : BlockStore) : Option BlockStore :=
  match layers.getLast? with
  | none => some st
  | some g =>
      if g = [] then none
      else
        match reblockLoop g fuel [start] [] [[]] 0 with
        | none => none
        | some idBlocks =>
            some (idBlocks.map fun b => b.map fun id => refreshMeta ledger (cache id))

/-- One operation of the block-store surface relevant to the block-size invariant. -/
inductive StoreOp
  | sync (embs : List Embedding)
  | reblock (layers : List Graph) (start : Nat) (cache : Cache) (ledger : Ledger)
      (fuel : Nat)
  | add (e : Embedding)

/-- Apply one store operation. -/
def applyStoreOp : StoreOp → BlockStore → Option BlockStore
  | .sync embs, st => some (syncOp embs st)
  | .reblock layers start cache ledger fuel, st =>
      reblockOp layers start cache ledger fuel st
  | .add e, st => some (addOp e st)

/-- Run a sequence of store operations from a starting store. -/
def runStoreOps : List StoreOp → BlockStore → Option BlockStore
  | [], st => some st
  | op :: rest, st =>
      match applyStoreOp op st with
      | none => none
      | some st2 => runStoreOps rest st2

/-- Modelled from the spec: the length-prefixed little-endian codec of
`serialization.rs` and the `Serialize` derive macro, which are not part of the provided
sources. A 64-bit integer is eight little-endian bytes. -/
def encodeU64 (n : Nat) : List Nat :=
  (List.range 8).map fun i => n / 256 ^ i % 256

/-- Modelled from the spec: "32-bit floats as IEEE-754" — each float occupies exactly
four bytes; no property proved here depends on the bit pattern, only on the width, so
the cell contents are fixed. -/
def f32bytes (_ : ℚ) : List Nat := [0, 0, 0, 0]

/-- Modelled from the spec: strings as `u64 length || utf8 bytes`. -/
def encodeString (s : String) : List Nat :=
  encodeU64 s.length ++ s.toList.map Char.toNat

/-- Modelled from the spec: homogeneous sequences as `u64 count || element × count`. -/
def encodeSeq (f : α → List Nat) (l : List α) : List Nat :=
  encodeU64 l.length ++ (l.map f).flatten

/-- Modelled from the spec: an optional byte-range subset, encoded as a presence count
followed by the payload. -/
def encodeSubset : Option (Nat × Nat) → List Nat
  | none => encodeU64 0
  | some (a, b) => encodeU64 1 ++ encodeU64 a ++ encodeU64 b

/-- Modelled from the spec: embedding encoding
`{id: u64, data: [f32], source_file: {filepath, meta, subset}}`, fields in declared
order. -/
def encodeEmbedding (e : Embedding) : List Nat :=
  encodeU64 e.id ++ encodeSeq f32bytes e.data ++ encodeString e.source_file.filepath ++
    encodeSeq encodeString e.source_file.meta ++ encodeSubset e.source_file.subset

/-- A block of embeddings tagged with its block number (`EmbeddingBlock` in
`dbio.rs`). -/
structure EmbeddingBlock where
  block : Nat
  embeddings : List Embedding
deriving DecidableEq

/-- Modelled from the spec: block encoding `{block: u64, embeddings: [Embedding]}`. -/
def encodeBlock (b : EmbeddingBlock) : List Nat :=
  encodeU64 b.block ++ encodeSeq encodeEmbedding b.embeddings

/-- The file contents produced by `EmbeddingBlock::to_file`: the code opens the file
with `create(true).write(true)` and no `truncate`, so `write_all` overwrites the prefix
of any existing contents and any longer residue survives after the new bytes. -/
def toFileContents (old : List Nat) (b : EmbeddingBlock) : List Nat :=
  let bytes := encodeBlock b
  bytes ++ old.drop bytes.length

theorem get_cons (hk : Nat) (hl : List (Nat × ℚ)) (rest : Graph) (a : Nat) :
    Graph.get ((hk, hl) :: rest) a = if hk = a then some hl else Graph.get rest a := rfl

theorem entryAppend_cons (hk : Nat) (hl : List (Nat × ℚ)) (rest : Graph) (k : Nat)
    (v : Nat × ℚ) :
    Graph.entryAppend ((hk, hl) :: rest) k v =
      if hk = k then (hk, hl ++ [v]) :: rest
      else (hk, hl) :: Graph.entryAppend rest k v := rfl

theorem setEntry_cons (hk : Nat) (hl : List (Nat × ℚ)) (rest : Graph) (k : Nat)
    (v : List (Nat × ℚ)) :
    Graph.setEntry ((hk, hl) :: rest) k v =
      if hk = k then (hk, v) :: rest
      else (hk, hl) :: Graph.setEntry rest k v := rfl

theorem setEntry_get_self (L : Graph) (k : Nat) (v : List (Nat × ℚ)) :
    Graph.get (Graph.setEntry L k v) k = some v := by
  induction L with
  | nil => simp [Graph.setEntry, Graph.get]
  | cons hd rest ih =>
      rcases hd with ⟨hk, hl⟩
      by_cases h : hk = k
      · subst h
        rw [setEntry_cons, if_pos rfl, get_cons, if_pos rfl]
      · rw [setEntry_cons, if_neg h, get_cons, if_neg h]
        exact ih

theorem setEntry_get_other (L : Graph) (k a : Nat) (v : List (Nat × ℚ)) (hne : a ≠ k) :
    Graph.get (Graph.setEntry L k v) a = Graph.get L a := by
  induction L with
  | nil =>
      have hka : ¬ k = a := fun hc => hne hc.symm
      simp [Graph.setEntry, Graph.get, hka]
  | cons hd rest ih =>
      rcases hd with ⟨hk, hl⟩
      by_cases h : hk = k
      · subst h
        have h2 : ¬ hk = a := fun hc => hne (hc.symm.trans rfl)
        rw [setEntry_cons, if_pos rfl, get_cons, if_neg h2, get_cons, if_neg h2]
      · rw [setEntry_cons, if_neg h]
        by_cases h2 : hk = a
        · rw [get_cons, if_pos h2, get_cons, if_pos h2]
        · rw [get_cons, if_neg h2, get_cons, if_neg h2]
          exact ih

theorem entryAppend_get_self (L : Graph) (k : Nat) (v : Nat × ℚ) :
    ∃ la, Graph.get (Graph.entryAppend L k v) k = some la ∧ v ∈ la := by
  induction L with
  | nil => exact ⟨[v], by simp [Graph.entryAppend, Graph.get]⟩
  | cons hd rest ih =>
      rcases hd with ⟨hk, hl⟩
      by_cases h : hk = k
      · subst h
        refine ⟨hl ++ [v], ?_, List.mem_append_right _ (List.mem_singleton_self v)⟩
        rw [entryAppend_cons, if_pos rfl, get_cons, if_pos rfl]
      · obtain ⟨la, hget, hmem⟩ := ih
        refine ⟨la, ?_, hmem⟩
        rw [entryAppend_cons, if_neg h, get_cons, if_neg h]
        exact hget

theorem entryAppend_get_mono (L : Graph) (k a : Nat) (v : Nat × ℚ)
    (la : List (Nat × ℚ)) (x : Nat × ℚ) (hget : Graph.get L a = some la) (hx : x ∈ la) :
    ∃ la', Graph.get (Graph.entryAppend L k v) a = some la' ∧ x ∈ la' := by
  induction L with
  | nil => simp [Graph.get] at hget
  | cons hd rest ih =>
      rcases hd with ⟨hk, hl⟩
      by_cases h : hk = k
      · subst h
        rw [entryAppend_cons, if_pos rfl]
        by_cases h2 : hk = a
        · rw [get_cons, if_pos h2] at hget ⊢
          refine ⟨hl ++ [v], rfl, ?_⟩
          exact List.mem_append_left _ (by rw [Option.some_inj.mp hget]; exact hx)
        · rw [get_cons, if_neg h2] at hget ⊢
          exact ⟨la, hget, hx⟩
      · rw [entryAppend_cons, if_neg h]
        by_cases h2 : hk = a
        · rw [get_cons, if_pos h2] at hget ⊢
          exact ⟨la, hget, hx⟩
        · rw [get_cons, if_neg h2] at hget ⊢
          exact ih hget

/-- The back-edge fold of `finalize`, named for the lemmas below. -/
def backedgeFold (qid : Nat) (rs : List (ℚ × Nat)) (L : Graph) : Graph :=
  rs.foldl (fun l p => Graph.entryAppend l p.2 (qid, p.1)) L

theorem backedgeFold_mono (qid : Nat) (rs : List (ℚ × Nat)) (L : Graph) (a : Nat)
    (la : List (Nat × ℚ)) (x : Nat × ℚ) (hget : Graph.get L a = some la) (hx : x ∈ la) :
    ∃ la', Graph.get (backedgeFold qid rs L) a = some la' ∧ x ∈ la' := by
  induction rs generalizing L la with
  | nil => exact ⟨la, hget, hx⟩
  | cons p rest ih =>
      obtain ⟨la1, hget1, hx1⟩ := entryAppend_get_mono L p.2 a (qid, p.1) la x hget hx
      exact ih _ _ hget1 hx1

theorem backedgeFold_mem (qid : Nat) (rs : List (ℚ × Nat)) (L : Graph) (d : ℚ) (n : Nat)
    (h : (d, n) ∈ rs) :
    ∃ la, Graph.get (backedgeFold qid rs L) n = some la ∧ (qid, d) ∈ la := by
  induction rs generalizing L with
  | nil => cases h
  | cons p rest ih =>
      rcases List.mem_cons.mp h with heq | hmem
      · obtain ⟨la1, hget1, hx1⟩ := entryAppend_get_self L p.2 (qid, p.1)
        have heq2 : p = (d, n) := heq.symm
        subst heq2
        exact backedgeFold_mono qid rest _ n la1 (qid, d) hget1 hx1
      · exact ih _ hmem

theorem mem_insLex {x z : ℚ × Nat} {l : List (ℚ × Nat)} (h : z ∈ insLex x l) :
    z = x ∨ z ∈ l := by
  induction l with
  | nil => simpa [insLex] using h
  | cons y ys ih =>
      by_cases hc : lexLt x y
      · simp only [insLex, hc, if_true] at h
        rcases List.mem_cons.mp h with h1 | h1
        · exact Or.inl h1
        · exact Or.inr h1
      · simp only [insLex, hc, if_false] at h
        rcases List.mem_cons.mp h with h1 | h1
        · subst h1
          exact Or.inr (List.mem_cons_self z ys)
        · rcases ih h1 with h2 | h2
          · exact Or.inl h2
          · exact Or.inr (List.mem_cons_of_mem y h2)

theorem fst_le_of_lexLt {x y : ℚ × Nat} (h : lexLt x y = true) : x.1 ≤ y.1 := by
  simp only [lexLt, Bool.or_eq_true, decide_eq_true_eq, Bool.and_eq_true] at h
  rcases h with h | ⟨h, _⟩
  · exact le_of_lt h
  · exact le_of_eq (by exact_mod_cast h)

theorem fst_le_of_not_lexLt {x y : ℚ × Nat} (h : ¬ lexLt x y = true) : y.1 ≤ x.1 := by
  have h2 : ¬ x.1 < y.1 := by
    intro hc
    exact h (by simp [lexLt, hc])
  exact le_of_not_lt h2

theorem pairwise_fst_insLex {x : ℚ × Nat} {l : List (ℚ × Nat)}
    (h : l.Pairwise fun a b => a.1 ≤ b.1) :
    (insLex x l).Pairwise fun a b => a.1 ≤ b.1 := by
  induction l with
  | nil => simp [insLex]
  | cons y ys ih =>
      rcases List.pairwise_cons.mp h with ⟨hy, hys⟩
      by_cases hc : lexLt x y
      · rw [insLex, if_pos hc]
        refine List.pairwise_cons.mpr ⟨?_, h⟩
        intro z hz
        rcases List.mem_cons.mp hz with h1 | h1
        · exact h1 ▸ fst_le_of_lexLt hc
        · exact le_trans (fst_le_of_lexLt hc) (hy z h1)
      · rw [insLex, if_neg hc]
        refine List.pairwise_cons.mpr ⟨?_, ih hys⟩
        intro z hz
        rcases mem_insLex hz with h1 | h1
        · exact h1 ▸ fst_le_of_not_lexLt hc
        · exact hy z h1

theorem pairwise_fst_sortLex_go (l acc : List (ℚ × Nat))
    (h : acc.Pairwise fun a b => a.1 ≤ b.1) :
    (l.foldl (fun a x => insLex x a) acc).Pairwise fun a b => a.1 ≤ b.1 := by
  induction l generalizing acc with
  | nil => exact h
  | cons x xs ih => exact ih _ (pairwise_fst_insLex h)

theorem pairwise_fst_sortLex (l : List (ℚ × Nat)) :
    (sortLex l).Pairwise fun a b => a.1 ≤ b.1 :=
  pairwise_fst_sortLex_go l [] List.Pairwise.nil


theorem insert_into_layer_nonempty (cache : Cache) (eid : Nat) (layer : Graph)
    (q : Embedding) (ef fuel : Nat) (hne : layer ≠ []) :
    insert_into_layer cache eid layer q ef fuel =
      (searchLoop cache q ef layer fuel
          [(qsub 1 (dot q (cache eid)), eid)] [(qsub 1 (dot q (cache eid)), eid)]
          [eid]).map fun results => finalize layer q.id (sortLex results) := by
  rw [insert_into_layer, if_neg hne]
  cases searchLoop cache q ef layer fuel
      [(qsub 1 (dot q (cache eid)), eid)] [(qsub 1 (dot q (cache eid)), eid)] [eid] with
  | none => rfl
  | some rs => rfl

/-- Claim C3 (confirmed). Immediately after `HNSW::insert_into_layer` returns for a
query node `q` inserted into a non-empty layer, `q`'s neighbor list equals the retained
results set (the output of the ef-greedy search) in ascending-distance order, and for
every neighbor `n` in `q`'s list the same layer contains an entry in `n`'s neighbor list
referencing `q` with the same distance value. -/
theorem claim_C3 (cache : Cache) (eid : Nat) (layer : Graph) (q : Embedding)
    (ef fuel : Nat) (layer2 : Graph) (hne : layer ≠ [])
    (h : insert_into_layer cache eid layer q ef fuel = some layer2) :
    ∃ rs, searchLoop cache q ef layer fuel
        [(qsub 1 (dot q (cache eid)), eid)] [(qsub 1 (dot q (cache eid)), eid)] [eid] =
        some rs ∧
      Graph.get layer2 q.id = some ((sortLex rs).map fun p => (p.2, p.1)) ∧
      ((sortLex rs).map fun p => (p.2, p.1)).Pairwise (fun a b => a.2 ≤ b.2) ∧
      ∀ p ∈ (sortLex rs).map fun p : ℚ × Nat => (p.2, p.1),
        ∃ la, Graph.get layer2 p.1 = some la ∧ (q.id, p.2) ∈ la := by
  rw [insert_into_layer_nonempty cache eid layer q ef fuel hne] at h
  rcases hs : searchLoop cache q ef layer fuel
      [(qsub 1 (dot q (cache eid)), eid)] [(qsub 1 (dot q (cache eid)), eid)] [eid] with
    _ | rs
  · rw [hs] at h; cases h
  · rw [hs] at h
    refine ⟨rs, rfl, ?_, ?_, ?_⟩
    · have h2 : layer2 = finalize layer q.id (sortLex rs) := by
        simpa using h.symm
      rw [h2, finalize]
      exact setEntry_get_self _ _ _
    · rw [List.pairwise_map]
      exact pairwise_fst_sortLex rs
    · intro p hp
      have h2 : layer2 = finalize layer q.id (sortLex rs) := by
        simpa using h.symm
      rcases List.mem_map.mp hp with ⟨pr, hpr, hpe⟩
      by_cases hq : p.1 = q.id
      · refine ⟨(sortLex rs).map fun p => (p.2, p.1), ?_, ?_⟩
        · rw [hq, h2, finalize]
          exact setEntry_get_self _ _ _
        · have : (q.id, p.2) = p := by
            rw [← hpe] at hq ⊢
            simp only at hq ⊢
            rw [hq]
          rw [this]
          exact hp
      · have hm : (p.2, p.1) ∈ sortLex rs := by
          rw [← hpe]
          simpa using hpr
        obtain ⟨la, hla, hmem⟩ := backedgeFold_mem q.id (sortLex rs) layer p.2 p.1 hm
        refine ⟨la, ?_, hmem⟩
        rw [h2, finalize]
        exact (setEntry_get_other (backedgeFold q.id (sortLex rs) layer) q.id p.1
          ((sortLex rs).map fun p => (p.2, p.1)) hq).trans hla

/-- Witness for claim C3 at a concrete input: inserting the id-2 embedding into the
one-node layer `[(1, [])]` with entry `1` links the two nodes symmetrically. -/
theorem claim_C3_witness :
    ∃ rs, searchLoop scratchGCache scratchG2 200 [(1, [])] 50
        [(qsub 1 (dot scratchG2 (scratchGCache 1)), 1)]
        [(qsub 1 (dot scratchG2 (scratchGCache 1)), 1)] [1] = some rs ∧
      Graph.get [(1, [(2, 1)]), (2, [(1, 1)])] scratchG2.id =
        some ((sortLex rs).map fun p => (p.2, p.1)) ∧
      ((sortLex rs).map fun p => (p.2, p.1)).Pairwise (fun a b => a.2 ≤ b.2) ∧
      ∀ p ∈ (sortLex rs).map fun p : ℚ × Nat => (p.2, p.1),
        ∃ la, Graph.get [(1, [(2, 1)]), (2, [(1, 1)])] p.1 = some la ∧
          (scratchG2.id, p.2) ∈ la :=
  claim_C3 scratchGCache 1 [(1, [])] scratchG2 200 50 [(1, [(2, 1)]), (2, [(1, 1)])]
    (by decide) (by decide)

theorem mem_insDist {x z : Nat × ℚ} {l : List (Nat × ℚ)} (h : z ∈ insDist x l) :
    z = x ∨ z ∈ l := by
  induction l with
  | nil => simpa [insDist] using h
  | cons y ys ih =>
      by_cases hc : y.2 ≤ x.2
      · simp only [insDist, hc, if_true] at h
        rcases List.mem_cons.mp h with h1 | h1
        · subst h1
          exact Or.inr (List.mem_cons_self z ys)
        · rcases ih h1 with h2 | h2
          · exact Or.inl h2
          · exact Or.inr (List.mem_cons_of_mem y h2)
      · simp only [insDist, hc, if_false] at h
        rcases List.mem_cons.mp h with h1 | h1
        · exact Or.inl h1
        · exact Or.inr h1

theorem pairwise_snd_insDist {x : Nat × ℚ} {l : List (Nat × ℚ)}
    (h : l.Pairwise fun a b => a.2 ≤ b.2) :
    (insDist x l).Pairwise fun a b => a.2 ≤ b.2 := by
  induction l with
  | nil => simp [insDist]
  | cons y ys ih =>
      rcases List.pairwise_cons.mp h with ⟨hy, hys⟩
      by_cases hc : y.2 ≤ x.2
      · rw [insDist, if_pos hc]
        refine List.pairwise_cons.mpr ⟨?_, ih hys⟩
        intro z hz
        rcases mem_insDist hz with h1 | h1
        · exact h1 ▸ hc
        · exact hy z h1
      · rw [insDist, if_neg hc]
        refine List.pairwise_cons.mpr ⟨?_, h⟩
        intro z hz
        rcases List.mem_cons.mp hz with h1 | h1
        · exact h1 ▸ le_of_not_le hc
        · exact le_trans (le_of_not_le hc) (hy z h1)

theorem pairwise_snd_sortByDist_go (l acc : List (Nat × ℚ))
    (h : acc.Pairwise fun a b => a.2 ≤ b.2) :
    (l.foldl (fun a x => insDist x a) acc).Pairwise fun a b => a.2 ≤ b.2 := by
  induction l generalizing acc with
  | nil => exact h
  | cons x xs ih => exact ih _ (pairwise_snd_insDist h)

theorem pairwise_snd_sortByDist (l : List (Nat × ℚ)) :
    (sortByDist l).Pairwise fun a b => a.2 ≤ b.2 :=
  pairwise_snd_sortByDist_go l [] List.Pairwise.nil

theorem pairwise_getLast {R : α → α → Prop} :
    ∀ {l : List α} {a : α}, l.Pairwise R → l.getLast? = some a → ∀ x ∈ l, x = a ∨ R x a := by
  intro l
  induction l with
  | nil => intro a _ h; cases h
  | cons y ys ih =>
      intro a hp hl x hx
      rcases List.pairwise_cons.mp hp with ⟨hy, hys⟩
      cases ys with
      | nil =>
          have ha : y = a := by simpa using hl
          rcases List.mem_singleton.mp hx with h1
          exact Or.inl (h1.trans ha)
      | cons z zs =>
          have hl2 : (z :: zs).getLast? = some a := by simpa using hl
          rcases List.mem_cons.mp hx with h1 | h1
          · have hmem : a ∈ z :: zs := by
              rcases List.mem_getLast?_eq_getLast (l := z :: zs) (x := a) hl2 with
                ⟨hne2, ha⟩
              rw [ha]
              exact List.getLast_mem hne2
            exact Or.inr (h1 ▸ hy a hmem)
          · exact ih hys hl2 x h1

/-- Claim C5 counterexample: at a directory of four embeddings `HNSW::new` computes the
schedule `[1/2, 1/4]`, whose index-0 entry `1/2` is not the smallest value — `1/4` is
smaller — so "reversed so that threshold[0] holds the smallest value" is false on the
code. -/
theorem claim_C5_counterexample :
    (buildOp scratchGCache 50 [(1, 1), (2, 1), (3, 1), (4, 1)]).map HNSWState.thresholds =
      some [mkRat 1 2, mkRat 1 4] ∧
    (mkRat 1 4 : ℚ) ∈ [mkRat 1 2, mkRat 1 4] ∧
    (mkRat 1 4 : ℚ) < mkRat 1 2 := by
  refine ⟨by decide, by decide, by decide⟩

/-- Claim C5 (corrected). The schedule shared by `HNSW::new` and `HNSW::insert` equals
`threshold[j] = p · (1 − p) ^ |j − L + 1|` for `j = 0 .. L − 1`, reversed — but the
reversal puts the LARGEST value of the schedule at `threshold[0]` (namely `p` itself),
not the smallest: every entry is at most the head. -/
theorem claim_C5_amended (l : Nat) (p : ℚ) (h0 : 0 ≤ p) (h1 : p ≤ 1) :
    thresholdSchedule l p =
      ((List.range l).map fun (j : Nat) =>
        p * (1 - p) ^ ((j : ℤ) - l + 1).natAbs).reverse ∧
    (l ≠ 0 → (thresholdSchedule l p).head? = some p) ∧
    ∀ x ∈ thresholdSchedule l p, x ≤ p := by
  refine ⟨thresholdSchedule_eq l p, ?_, ?_⟩
  · intro hl
    rcases Nat.exists_eq_succ_of_ne_zero hl with ⟨k, hk⟩
    subst hk
    rw [thresholdSchedule_eq, List.head?_reverse, List.range_succ, List.map_append]
    simp only [List.map_cons, List.map_nil]
    rw [List.getLast?_concat]
    have he : ((k : ℤ) - (k.succ : ℤ) + 1).natAbs = 0 := by
      push_cast
      omega
    rw [he, pow_zero, mul_one]
  · intro x hx
    rw [thresholdSchedule_eq] at hx
    rw [List.mem_reverse] at hx
    rcases List.mem_map.mp hx with ⟨j, _, hj⟩
    have hpow : (1 - p) ^ ((j : ℤ) - l + 1).natAbs ≤ 1 :=
      pow_le_one₀ (by linarith) (by linarith)
    calc x = p * (1 - p) ^ ((j : ℤ) - l + 1).natAbs := hj.symm
      _ ≤ p * 1 := mul_le_mul_of_nonneg_left hpow h0
      _ = p := mul_one p

/-- Witness for claim C5 at `L = 2`, `p = 1/2`: the schedule is the reversed formula
list, its head is `1/2`, and every entry is at most `1/2`. -/
theorem claim_C5_witness :
    thresholdSchedule 2 (mkRat 1 2) =
      ((List.range 2).map fun (j : Nat) =>
        (mkRat 1 2 : ℚ) * (1 - mkRat 1 2) ^ ((j : ℤ) - 2 + 1).natAbs).reverse ∧
    (2 ≠ 0 → (thresholdSchedule 2 (mkRat 1 2)).head? = some (mkRat 1 2)) ∧
    ∀ x ∈ thresholdSchedule 2 (mkRat 1 2), x ≤ mkRat 1 2 :=
  claim_C5_amended 2 (mkRat 1 2) (by decide) (by decide)

def c7emb : Embedding := ⟨1, [], ⟨"", [], none⟩⟩

def c7blockOne : EmbeddingBlock := ⟨0, [c7emb]⟩

def c7blockTwo : EmbeddingBlock := ⟨0, [c7emb, c7emb]⟩

/-- Claim C7 (code bug): `EmbeddingBlock::to_file` opens with
`create(true).write(true)` and no `truncate(true)`, so rewriting a block file that
previously held a longer encoding leaves the residue of the old bytes after the new
encoding — the file contents are not exactly the new encoding. The failing input: the
file holds the 96-byte encoding of a two-embedding block and is rewritten with the
56-byte encoding of a one-embedding block. -/
theorem claim_C7 :
    (encodeBlock c7blockOne).length = 56 ∧
    (encodeBlock c7blockTwo).length = 96 ∧
    toFileContents (encodeBlock c7blockTwo) c7blockOne ≠ encodeBlock c7blockOne := by
  refine ⟨by decide, by decide, by decide⟩

def c8graph : Graph :=
  [(1, [(2, mkRat 9 10), (3, mkRat 1 10)]), (2, [(1, mkRat 9 10)]),
    (3, [(1, mkRat 1 10)])]

/-- Claim C8 counterexample: in the graph where node 1 has neighbors 2 (distance 9/10)
and 3 (distance 1/10), the DFS of `reblock` started at 1 visits `[1, 2, 3]` — the node
expanded right after 1 is its FARTHEST unvisited neighbor 2, not the closest one 3,
because the ascending-order pushes put the largest distance on top of the stack. -/
theorem claim_C8_counterexample :
    reblockLoop c8graph 10 [1] [] [[]] 0 = some [[1, 2, 3]] ∧
    Graph.get c8graph 1 = some [(2, mkRat 9 10), (3, mkRat 1 10)] ∧
    (mkRat 1 10 : ℚ) < mkRat 9 10 := by
  refine ⟨by decide, by decide, by decide⟩

theorem foldl_push_eq (visited1 : List Nat) :
    ∀ (l : List (Nat × ℚ)) (rest : List Nat),
      l.foldl (fun st p => if p.1 ∈ visited1 then st else p.1 :: st) rest =
        ((l.filter fun p => decide (p.1 ∉ visited1)).map Prod.fst).reverse ++ rest := by
  intro l
  induction l with
  | nil => intro rest; rfl
  | cons p tl ih =>
      intro rest
      by_cases hm : p.1 ∈ visited1
      · have hd : decide (p.1 ∉ visited1) = false := by simp [hm]
        rw [List.foldl_cons, if_pos hm, List.filter_cons, hd]
        exact ih rest
      · have hd : decide (p.1 ∉ visited1) = true := by simp [hm]
        rw [List.foldl_cons, if_neg hm, List.filter_cons, hd, ih (p.1 :: rest)]
        simp

theorem stack_top_farthest (visited1 : List Nat) (nbrs : List (Nat × ℚ))
    (rest : List Nat) (pmax : Nat × ℚ)
    (hlast :
      ((sortByDist nbrs).filter fun p => decide (p.1 ∉ visited1)).getLast? = some pmax) :
    ((sortByDist nbrs).foldl
      (fun st p => if p.1 ∈ visited1 then st else p.1 :: st) rest).head? =
        some pmax.1 ∧
    ∀ x ∈ (sortByDist nbrs).filter fun p => decide (p.1 ∉ visited1), x.2 ≤ pmax.2 := by
  constructor
  · rw [foldl_push_eq visited1 (sortByDist nbrs) rest]
    have h3 :
        (((sortByDist nbrs).filter fun p => decide (p.1 ∉ visited1)).map
          Prod.fst).getLast? = some pmax.1 := by
      rw [List.getLast?_map, hlast]
      rfl
    have hne :
        (((sortByDist nbrs).filter fun p => decide (p.1 ∉ visited1)).map
          Prod.fst).reverse ≠ [] := by
      intro hc
      rw [List.reverse_eq_nil_iff] at hc
      rw [hc] at h3
      cases h3
    rw [List.head?_append_of_ne_nil _ hne, List.head?_reverse]
    exact h3
  · intro x hx
    have hp : ((sortByDist nbrs).filter fun p =>
        decide (p.1 ∉ visited1)).Pairwise fun a b => a.2 ≤ b.2 :=
      List.Pairwise.filter _ (pairwise_snd_sortByDist nbrs)
    rcases pairwise_getLast hp hlast x hx with h4 | h4
    · exact h4 ▸ le_refl _
    · exact h4

/-- Claim C8 (corrected). At every pop of an unvisited node the DFS of `reblock` starts
a new target block exactly when the current block holds at least `BLOCK_SIZE` ids, and
pushes the unvisited neighbors in ascending distance order — so the stack, whose top is
popped next, expands the FARTHEST (not the closest) unvisited neighbor first: when any
neighbor is pushed, the next node popped is a pushed neighbor of maximal distance. -/
theorem claim_C8_amended (g : Graph) (current : Nat) (rest visited : List Nat)
    (blocks : List (List Nat)) (i : Nat) (nbrs : List (Nat × ℚ))
    (hg : Graph.get g current = some nbrs) :
    ∃ blocks2 i2 stack2,
      reblockStep g current rest visited blocks i =
        some (blocks2, i2, current :: visited, stack2) ∧
      (BLOCK_SIZE ≤ getBlockLen blocks i →
        i2 = i + 1 ∧ blocks2 = pushBlock (blocks ++ [[]]) (i + 1) current) ∧
      (getBlockLen blocks i < BLOCK_SIZE →
        i2 = i ∧ blocks2 = pushBlock blocks i current) ∧
      stack2 =
        (((sortByDist nbrs).filter fun p => decide (p.1 ∉ current :: visited)).map
          Prod.fst).reverse ++ rest ∧
      ∀ pmax,
        ((sortByDist nbrs).filter fun p => decide (p.1 ∉ current :: visited)).getLast? =
          some pmax →
        stack2.head? = some pmax.1 ∧
        ∀ x ∈ (sortByDist nbrs).filter fun p => decide (p.1 ∉ current :: visited),
          x.2 ≤ pmax.2 := by
  rcases le_or_lt BLOCK_SIZE (getBlockLen blocks i) with hfull | hfull
  · refine ⟨pushBlock (blocks ++ [[]]) (i + 1) current, i + 1,
      (sortByDist nbrs).foldl
        (fun st p => if p.1 ∈ current :: visited then st else p.1 :: st) rest,
      ?_, ?_, ?_, ?_, ?_⟩
    · rw [reblockStep, hg]
      rw [if_pos hfull]
    · exact fun _ => ⟨rfl, rfl⟩
    · intro h2
      exact absurd hfull (not_le.mpr h2)
    · exact foldl_push_eq (current :: visited) (sortByDist nbrs) rest
    · exact fun pmax hlast => stack_top_farthest (current :: visited) nbrs rest pmax hlast
  · refine ⟨pushBlock blocks i current, i,
      (sortByDist nbrs).foldl
        (fun st p => if p.1 ∈ current :: visited then st else p.1 :: st) rest,
      ?_, ?_, ?_, ?_, ?_⟩
    · rw [reblockStep, hg]
      rw [if_neg (not_le.mpr hfull)]
    · intro h2
      exact absurd h2 (not_le.mpr hfull)
    · exact fun _ => ⟨rfl, rfl⟩
    · exact foldl_push_eq (current :: visited) (sortByDist nbrs) rest
    · exact fun pmax hlast => stack_top_farthest (current :: visited) nbrs rest pmax hlast

/-- Witness for claim C8 at a concrete step: popping node 1 of the counterexample graph
with nothing visited pushes neighbors 3 then 2, leaving the farthest neighbor 2 on top
of the stack. -/
theorem claim_C8_witness :
    ∃ blocks2 i2 stack2,
      reblockStep c8graph 1 [] [] [[]] 0 = some (blocks2, i2, 1 :: [], stack2) ∧
      (BLOCK_SIZE ≤ getBlockLen [[]] 0 →
        i2 = 0 + 1 ∧ blocks2 = pushBlock ([[]] ++ [[]]) (0 + 1) 1) ∧
      (getBlockLen [[]] 0 < BLOCK_SIZE →
        i2 = 0 ∧ blocks2 = pushBlock [[]] 0 1) ∧
      stack2 =
        (((sortByDist [(2, mkRat 9 10), (3, mkRat 1 10)]).filter fun p =>
          decide (p.1 ∉ 1 :: [])).map Prod.fst).reverse ++ [] ∧
      ∀ pmax,
        ((sortByDist [(2, mkRat 9 10), (3, mkRat 1 10)]).filter fun p =>
          decide (p.1 ∉ 1 :: [])).getLast? = some pmax →
        stack2.head? = some pmax.1 ∧
        ∀ x ∈ (sortByDist [(2, mkRat 9 10), (3, mkRat 1 10)]).filter fun p =>
          decide (p.1 ∉ 1 :: []), x.2 ≤ pmax.2 :=
  claim_C8_amended c8graph 1 [] [] [[]] 0 [(2, mkRat 9 10), (3, mkRat 1 10)] (by decide)

/-- Claim C9 counterexample: `HNSW::query` checks for an empty layer vector before the
`ef < k` guard, so the call with `k = 1`, `ef = 0` on an empty index returns the
successful empty result — it does not fail with an `InvalidArgument` error (and on a
non-empty index the guard is a `panic!`, not an error return). -/
theorem claim_C9_counterexample :
    0 < 1 ∧
    queryFn 10 ⟨0, [], none, []⟩ scratchCache1 scratchQ1 1 0 = .final [] := by
  refine ⟨by decide, by decide⟩

/-- Claim C9 (corrected). For `ef < k`, `HNSW::query` returns the successful empty
result when the index has no layers, and otherwise aborts through the explicit
`panic!("ef must be greater than k")` — the violation is never reported to the caller
as an error value. -/
theorem claim_C9_amended (fuel : Nat) (h : HNSWState) (cache : Cache) (qry : Query)
    (k ef : Nat) (hlt : ef < k) :
    (h.layers = [] → queryFn fuel h cache qry k ef = .final []) ∧
    (h.layers ≠ [] → queryFn fuel h cache qry k ef = .panicked .efLtK) := by
  constructor
  · intro hl
    rw [queryFn, if_pos hl]
  · intro hl
    rw [queryFn, if_neg hl, if_pos hlt]

/-- Witness for claim C9 on the concrete two-node index: the `ef = 0 < k = 1` call
panics rather than returning an error result. -/
theorem claim_C9_witness :
    (scratchS1.layers = [] →
      queryFn 10 scratchS1 scratchCache1 scratchQ1 1 0 = .final []) ∧
    (scratchS1.layers ≠ [] →
      queryFn 10 scratchS1 scratchCache1 scratchQ1 1 0 = .panicked .efLtK) :=
  claim_C9_amended 10 scratchS1 scratchCache1 scratchQ1 1 0 (by decide)

theorem chunksGo_le {α : Type} (n : Nat) :
    ∀ (fuel : Nat) (l : List α), ∀ b ∈ chunksGo n fuel l, b.length ≤ n := by
  intro fuel
  induction fuel with
  | zero =>
      intro l b hb
      cases l <;> simp [chunksGo] at hb
  | succ fuel ih =>
      intro l b hb
      cases l with
      | nil => simp [chunksGo] at hb
      | cons x xs =>
          rw [chunksGo] at hb
          rcases List.mem_cons.mp hb with h | h
          · rw [h, List.length_take]
            exact min_le_left _ _
          · exact ih _ b h

theorem chunks_le {α : Type} (n : Nat) (l : List α) : ∀ b ∈ chunks n l, b.length ≤ n :=
  chunksGo_le n l.length l

theorem chunks_singleton {α : Type} (n : Nat) (l : List α) (hne : l ≠ [])
    (hlen : l.length ≤ n) : chunks n l = [l] := by
  rw [chunks]
  cases l with
  | nil => exact absurd rfl hne
  | cons x xs =>
      rw [List.length_cons, chunksGo]
      have ht : List.take n (x :: xs) = x :: xs := List.take_of_length_le hlen
      have hd : List.drop n (x :: xs) = [] := List.drop_eq_nil_of_le hlen
      rw [ht, hd]
      cases xs.length <;> simp [chunksGo]

theorem getBlockLen_append_nil (blocks : List (List Nat)) :
    getBlockLen (blocks ++ [[]]) blocks.length = 0 := by
  induction blocks with
  | nil => rfl
  | cons b rest ih => simpa [getBlockLen] using ih

theorem pushBlock_le (blocks : List (List Nat)) (i x : Nat)
    (h : ∀ b ∈ blocks, b.length ≤ BLOCK_SIZE)
    (hi : getBlockLen blocks i + 1 ≤ BLOCK_SIZE) :
    ∀ b ∈ pushBlock blocks i x, b.length ≤ BLOCK_SIZE := by
  induction blocks generalizing i with
  | nil => intro b hb; simp [pushBlock] at hb
  | cons hd rest ih =>
      intro b hb
      cases i with
      | zero =>
          rw [pushBlock] at hb
          rcases List.mem_cons.mp hb with h1 | h1
          · rw [h1, List.length_append]
            simpa [getBlockLen] using hi
          · exact h b (List.mem_cons_of_mem hd h1)
      | succ i =>
          rw [pushBlock] at hb
          rcases List.mem_cons.mp hb with h1 | h1
          · exact h b (h1 ▸ List.mem_cons_self hd rest)
          · exact ih i (fun b hb => h b (List.mem_cons_of_mem hd hb))
              (by simpa [getBlockLen] using hi) b h1

theorem pushBlock_length (blocks : List (List Nat)) (i x : Nat) :
    (pushBlock blocks i x).length = blocks.length := by
  induction blocks generalizing i with
  | nil => rfl
  | cons hd rest ih =>
      cases i with
      | zero => simp [pushBlock]
      | succ i => simp [pushBlock, ih]

theorem reblockLoop_blocks_le (g : Graph) :
    ∀ (fuel : Nat) (stack visited : List Nat) (blocks : List (List Nat)) (i : Nat)
      (res : List (List Nat)),
      i + 1 = blocks.length →
      (∀ b ∈ blocks, b.length ≤ BLOCK_SIZE) →
      reblockLoop g fuel stack visited blocks i = some res →
      ∀ b ∈ res, b.length ≤ BLOCK_SIZE := by
  intro fuel
  induction fuel with
  | zero =>
      intro stack visited blocks i res _ _ h
      cases h
  | succ fuel ih =>
      intro stack visited blocks i res hlen hok h
      cases stack with
      | nil =>
          rw [reblockLoop] at h
          cases h
          exact hok
      | cons current rest =>
          rw [reblockLoop] at h
          by_cases hv : current ∈ visited
          · rw [if_pos hv] at h
            exact ih rest visited blocks i res hlen hok h
          · rw [if_neg hv] at h
            rcases hg : Graph.get g current with _ | nbrs
            · rw [reblockStep, hg] at h
              cases h
            · rw [reblockStep, hg] at h
              by_cases hfull : BLOCK_SIZE ≤ getBlockLen blocks i
              · rw [if_pos hfull] at h
                refine ih _ _ _ _ res ?_ ?_ h
                · rw [pushBlock_length, List.length_append, List.length_singleton]
                  omega
                · refine pushBlock_le _ _ _ ?_ ?_
                  · intro b hb
                    rcases List.mem_append.mp hb with h1 | h1
                    · exact hok b h1
                    · rcases List.mem_singleton.mp h1 with h2
                      rw [h2]
                      simp [BLOCK_SIZE]
                  · have h0 : getBlockLen (blocks ++ [[]]) (i + 1) = 0 := by
                      rw [hlen]
                      exact getBlockLen_append_nil blocks
                    rw [h0]
                    simp [BLOCK_SIZE]
              · rw [if_neg hfull] at h
                refine ih _ _ _ _ res ?_ ?_ h
                · rw [pushBlock_length]
                  exact hlen
                · exact pushBlock_le _ _ _ hok (by omega)

def c6emb : Embedding := ⟨1, [], ⟨"", [], none⟩⟩

/-- Claim C6 counterexample: after a `sync` that fills block 0 with exactly
`BLOCK_SIZE` embeddings, one `add_new_embedding` appends to that same block without
splitting, so block 0 decodes to `BLOCK_SIZE + 1` embeddings. -/
theorem claim_C6_counterexample :
    runStoreOps [.sync (List.replicate BLOCK_SIZE c6emb), .add c6emb] [] =
      some [List.replicate BLOCK_SIZE c6emb ++ [c6emb]] ∧
    ∃ b ∈ [List.replicate BLOCK_SIZE c6emb ++ [c6emb]], BLOCK_SIZE < b.length := by
  constructor
  · have h1 : chunks BLOCK_SIZE (List.replicate BLOCK_SIZE c6emb) =
        [List.replicate BLOCK_SIZE c6emb] := by
      refine chunks_singleton _ _ ?_ (by simp)
      intro hc
      have := congrArg List.length hc
      simp [BLOCK_SIZE] at this
    simp only [runStoreOps, applyStoreOp, syncOp, h1, addOp]
  · refine ⟨_, List.mem_singleton_self _, ?_⟩
    simp [BLOCK_SIZE]

/-- The operations of the store surface that are not `add_new_embedding`. -/
def StoreOp.isAdd : StoreOp → Bool
  | .add _ => true
  | _ => false

/-- Claim C6 (corrected). After any sequence of `sync` and `reblock` operations from a
store whose blocks respect the bound, no block file decodes to more than `BLOCK_SIZE`
embeddings; `add_new_embedding` is excluded because it appends to the last block
without splitting and can push it past the bound. -/
theorem claim_C6_amended (ops : List StoreOp) (st st' : BlockStore)
    (hops : ∀ op ∈ ops, op.isAdd = false)
    (hst : ∀ b ∈ st, b.length ≤ BLOCK_SIZE)
    (h : runStoreOps ops st = some st') :
    ∀ b ∈ st', b.length ≤ BLOCK_SIZE := by
  induction ops generalizing st with
  | nil =>
      rw [runStoreOps] at h
      cases h
      exact hst
  | cons op rest ih =>
      rcases op with embs | ⟨layers, start, cache, ledger, fuel⟩ | e
      · rw [runStoreOps] at h
        simp only [applyStoreOp] at h
        refine ih _ (fun o ho => hops o (List.mem_cons_of_mem _ ho)) ?_ h
        intro b hb
        exact chunks_le BLOCK_SIZE embs b hb
      · rw [runStoreOps] at h
        simp only [applyStoreOp, reblockOp] at h
        rcases hl : layers.getLast? with _ | g
        · rw [hl] at h
          simp only at h
          refine ih _ (fun o ho => hops o (List.mem_cons_of_mem _ ho)) hst h
        · rw [hl] at h
          simp only at h
          by_cases hge : g = []
          · rw [if_pos hge] at h
            cases h
          · rw [if_neg hge] at h
            rcases hrb : reblockLoop g fuel [start] [] [[]] 0 with _ | idBlocks
            · rw [hrb] at h
              cases h
            · rw [hrb] at h
              simp only at h
              refine ih _ (fun o ho => hops o (List.mem_cons_of_mem _ ho)) ?_ h
              intro b hb
              rcases List.mem_map.mp hb with ⟨ids, hids, hb2⟩
              rw [← hb2, List.length_map]
              exact reblockLoop_blocks_le g fuel [start] [] [[]] 0 idBlocks rfl
                (by intro b hb; simp at hb; simp [hb]) hrb ids hids
      · exact absurd (hops _ (List.mem_cons_self _ _)) (by simp [StoreOp.isAdd])

/-- Witness for claim C6: one sync of three embeddings yields the single block
`[c6emb, c6emb, c6emb]`, and that block is within `BLOCK_SIZE`. -/
theorem claim_C6_witness :
    ([c6emb, c6emb, c6emb] : List Embedding).length ≤ BLOCK_SIZE :=
  claim_C6_amended [.sync [c6emb, c6emb, c6emb]] [] [[c6emb, c6emb, c6emb]]
    (by intro op hop; rcases List.mem_singleton.mp hop with h; rw [h]; rfl)
    (by intro b hb; cases hb)
    (by
      have h1 : chunks BLOCK_SIZE [c6emb, c6emb, c6emb] = [[c6emb, c6emb, c6emb]] :=
        chunks_singleton _ _ (by intro hc; cases hc) (by simp [BLOCK_SIZE])
      simp only [runStoreOps, applyStoreOp, syncOp, h1])
    [c6emb, c6emb, c6emb] (List.mem_singleton_self _)

theorem insDist_length (x : Nat × ℚ) (l : List (Nat × ℚ)) :
    (insDist x l).length = l.length + 1 := by
  induction l with
  | nil => rfl
  | cons y ys ih =>
      by_cases hc : y.2 ≤ x.2
      · simp [insDist, hc, ih]
      · simp [insDist, hc]

theorem sortByDist_length_go :
    ∀ (l acc : List (Nat × ℚ)),
      (l.foldl (fun a x => insDist x a) acc).length = l.length + acc.length := by
  intro l
  induction l with
  | nil => intro acc; simp
  | cons x xs ih =>
      intro acc
      rw [List.foldl_cons, ih, insDist_length]
      simp
      omega

theorem sortByDist_length (l : List (Nat × ℚ)) : (sortByDist l).length = l.length := by
  rw [sortByDist, sortByDist_length_go]
  rfl

theorem mem_sortByDist_go :
    ∀ (l acc : List (Nat × ℚ)) (z : Nat × ℚ),
      z ∈ l.foldl (fun a x => insDist x a) acc → z ∈ l ∨ z ∈ acc := by
  intro l
  induction l with
  | nil => intro acc z h; exact Or.inr h
  | cons x xs ih =>
      intro acc z h
      rw [List.foldl_cons] at h
      rcases ih _ z h with h1 | h1
      · exact Or.inl (List.mem_cons_of_mem x h1)
      · rcases mem_insDist h1 with h2 | h2
        · exact Or.inl (h2 ▸ List.mem_cons_self x xs)
        · exact Or.inr h2

theorem mem_sortByDist {l : List (Nat × ℚ)} {z : Nat × ℚ} (h : z ∈ sortByDist l) :
    z ∈ l := by
  rcases mem_sortByDist_go l [] z h with h1 | h1
  · exact h1
  · cases h1

theorem prune_length_le (k : Nat) (l : List (Nat × ℚ)) (h : l.length ≤ k + 1) :
    (prune k l).length ≤ k := by
  rw [prune]
  by_cases hc : k < l.length
  · rw [if_pos hc, List.length_take, sortByDist_length]
    exact min_le_left _ _
  · rw [if_neg hc]
    omega

theorem mem_prune {k : Nat} {l : List (Nat × ℚ)} {z : Nat × ℚ} (h : z ∈ prune k l) :
    z ∈ l := by
  rw [prune] at h
  by_cases hc : k < l.length
  · rw [if_pos hc] at h
    exact mem_sortByDist (List.take_subset _ _ h)
  · rw [if_neg hc] at h
    exact h

theorem pushLoop_len (cache : Cache) (k ef : Nat) :
    ∀ (nbrs : List (Nat × ℚ)) (vis bl : List Bool) (topK : List (Nat × ℚ))
      (count : Nat) (stack : List Nat)
      (r : (List Bool × List (Nat × ℚ) × Nat × List Nat) ⊕ List (Embedding × ℚ)),
      topK.length ≤ k →
      pushLoop cache k ef nbrs vis bl topK count stack = some r →
      (∀ vis2 topK2 count2 stack2, r = .inl (vis2, topK2, count2, stack2) →
        topK2.length ≤ k) ∧
      (∀ res, r = .inr res → res.length ≤ k) := by
  intro nbrs
  induction nbrs with
  | nil =>
      intro vis bl topK count stack r hk h
      rw [pushLoop] at h
      cases h
      constructor
      · intro vis2 topK2 count2 stack2 he
        cases he
        exact hk
      · intro res he
        cases he
  | cons hd rest ih =>
      rcases hd with ⟨nb, d⟩
      intro vis bl topK count stack r hk h
      rw [pushLoop] at h
      rcases hv : vis.get? nb with _ | v
      · simp only [hv] at h
        cases h
      · rcases hb : bl.get? nb with _ | b
        · simp only [hv, hb] at h
          cases h
        · simp only [hv, hb] at h
          have hp1 : (prune k (topK ++ [(nb, d)])).length ≤ k :=
            prune_length_le k _ (by rw [List.length_append]; simpa using hk)
          have hp0 : (prune k topK).length ≤ k :=
            prune_length_le k _ (by omega)
          by_cases hcond : (!v && !b && decide (count < ef)) = true
          · rw [if_pos hcond] at h
            by_cases hef : ef ≤ count + 1
            · rw [if_pos hef] at h
              cases h
              constructor
              · intro _ _ _ _ he
                cases he
              · intro res he
                cases he
                rw [List.length_map]
                exact hp1
            · rw [if_neg hef] at h
              exact ih _ _ _ _ _ r hp1 h
          · rw [if_neg hcond] at h
            by_cases hef : ef ≤ count
            · rw [if_pos hef] at h
              cases h
              constructor
              · intro _ _ _ _ he
                cases he
              · intro res he
                cases he
                rw [List.length_map]
                exact hp0
            · rw [if_neg hef] at h
              exact ih _ _ _ _ _ r hp0 h

theorem whileStack_len (cache : Cache) (qry : Query) (k ef : Nat) (layer : Graph) :
    ∀ (fuel : Nat) (stack : List Nat) (vis bl : List Bool) (topK : List (Nat × ℚ))
      (count current : Nat),
      topK.length ≤ k →
      (∀ vis2 bl2 topK2 count2 current2,
        whileStack cache qry k ef layer fuel stack vis bl topK count current =
          .cont vis2 bl2 topK2 count2 current2 → topK2.length ≤ k) ∧
      (∀ res,
        whileStack cache qry k ef layer fuel stack vis bl topK count current =
          .early res → res.length ≤ k) := by
  intro fuel
  induction fuel with
  | zero =>
      intro stack vis bl topK count current _
      constructor
      · intro _ _ _ _ _ he
        rw [whileStack] at he
        cases he
      · intro res he
        rw [whileStack] at he
        cases he
  | succ fuel ih =>
      intro stack vis bl topK count current hk
      cases stack with
      | nil =>
          constructor
          · intro vis2 bl2 topK2 count2 current2 he
            rw [whileStack] at he
            cases he
            exact hk
          · intro res he
            rw [whileStack] at he
            cases he
      | cons c rest =>
          rcases hg : Graph.get layer c with _ | edges
          · constructor
            · intro vis2 bl2 topK2 count2 current2 he
              rw [whileStack] at he
              rw [hg] at he
              exact (ih rest vis bl topK count c hk).1 _ _ _ _ _ he
            · intro res he
              rw [whileStack] at he
              rw [hg] at he
              exact (ih rest vis bl topK count c hk).2 _ he
          · rcases hn : neighborScan cache qry edges bl vis with _ | pr
            · constructor
              · intro vis2 bl2 topK2 count2 current2 he
                rw [whileStack] at he
                rw [hg] at he
                simp only [hn] at he
                cases he
              · intro res he
                rw [whileStack] at he
                rw [hg] at he
                simp only [hn] at he
                cases he
            · rcases pr with ⟨scanned, bl2⟩
              rcases hp : pushLoop cache k ef (sortByDist scanned) vis bl2 topK count
                  rest with _ | r
              · constructor
                · intro vis2 bl3 topK2 count2 current2 he
                  rw [whileStack] at he
                  rw [hg] at he
                  simp only [hn, hp] at he
                  cases he
                · intro res he
                  rw [whileStack] at he
                  rw [hg] at he
                  simp only [hn, hp] at he
                  cases he
              · rcases r with ⟨vis3, topK3, count3, stack3⟩ | res3
                · constructor
                  · intro vis2 bl3 topK2 count2 current2 he
                    rw [whileStack] at he
                    rw [hg] at he
                    simp only [hn, hp] at he
                    exact (ih stack3 vis3 bl2 topK3 count3 c
                      ((pushLoop_len cache k ef _ _ _ _ _ _ _ hk hp).1 _ _ _ _ rfl)).1
                      _ _ _ _ _ he
                  · intro res he
                    rw [whileStack] at he
                    rw [hg] at he
                    simp only [hn, hp] at he
                    exact (ih stack3 vis3 bl2 topK3 count3 c
                      ((pushLoop_len cache k ef _ _ _ _ _ _ _ hk hp).1 _ _ _ _ rfl)).2
                      _ he
                · constructor
                  · intro vis2 bl3 topK2 count2 current2 he
                    rw [whileStack] at he
                    rw [hg] at he
                    simp only [hn, hp] at he
                    cases he
                  · intro res he
                    rw [whileStack] at he
                    rw [hg] at he
                    simp only [hn, hp] at he
                    cases he
                    exact (pushLoop_len cache k ef _ _ _ _ _ _ _ hk hp).2 _ rfl

theorem layersLoop_len (cache : Cache) (qry : Query) (k ef fuel : Nat) :
    ∀ (layers : List Graph) (vis bl : List Bool) (topK : List (Nat × ℚ))
      (count current : Nat),
      topK.length ≤ k →
      (∀ res,
        layersLoop cache qry k ef fuel layers vis bl topK count current = .final res →
        res.length ≤ k ∧ res.Pairwise fun a b => a.2 ≤ b.2) ∧
      (∀ res,
        layersLoop cache qry k ef fuel layers vis bl topK count current = .early res →
        res.length ≤ k) := by
  intro layers
  induction layers with
  | nil =>
      intro vis bl topK count current hk
      constructor
      · intro res he
        rw [layersLoop] at he
        cases he
        constructor
        · rw [List.length_map, sortByDist_length]
          exact hk
        · rw [List.pairwise_map]
          exact pairwise_snd_sortByDist topK
      · intro res he
        rw [layersLoop] at he
        cases he
  | cons layer restLayers ih =>
      intro vis bl topK count current hk
      by_cases he0 : layer = ([] : Graph)
      · constructor
        · intro res he
          rw [layersLoop, if_pos he0] at he
          exact (ih vis bl topK count current hk).1 res he
        · intro res he
          rw [layersLoop, if_pos he0] at he
          exact (ih vis bl topK count current hk).2 res he
      · rcases hw : whileStack cache qry k ef layer fuel [current] vis bl topK count
            current with ⟨vis2, bl2, topK2, count2, current2⟩ | res2 | _ | _
        · have hk2 : topK2.length ≤ k :=
            (whileStack_len cache qry k ef layer fuel [current] vis bl topK count
              current hk).1 _ _ _ _ _ hw
          have hks : (sortByDist topK2).length ≤ k := by
            rw [sortByDist_length]
            exact hk2
          rcases hh : (sortByDist topK2).head? with _ | p
          · constructor
            · intro res he
              rw [layersLoop, if_neg he0] at he
              simp only [hw, hh] at he
              exact (ih _ _ _ _ _ hks).1 res he
            · intro res he
              rw [layersLoop, if_neg he0] at he
              simp only [hw, hh] at he
              exact (ih _ _ _ _ _ hks).2 res he
          · constructor
            · intro res he
              rw [layersLoop, if_neg he0] at he
              simp only [hw, hh] at he
              exact (ih _ _ _ _ _ hks).1 res he
            · intro res he
              rw [layersLoop, if_neg he0] at he
              simp only [hw, hh] at he
              exact (ih _ _ _ _ _ hks).2 res he
        · constructor
          · intro res he
            rw [layersLoop, if_neg he0] at he
            simp only [hw] at he
            cases he
          · intro res he
            rw [layersLoop, if_neg he0] at he
            simp only [hw] at he
            cases he
            exact (whileStack_len cache qry k ef layer fuel [current] vis bl topK count
              current hk).2 _ hw
        · constructor
          · intro res he
            rw [layersLoop, if_neg he0] at he
            simp only [hw] at he
            cases he
          · intro res he
            rw [layersLoop, if_neg he0] at he
            simp only [hw] at he
            cases he
        · constructor
          · intro res he
            rw [layersLoop, if_neg he0] at he
            simp only [hw] at he
            cases he
          · intro res he
            rw [layersLoop, if_neg he0] at he
            simp only [hw] at he
            cases he

/-- Claim C2 counterexample: with `ef = k = 3` on a four-node index holding ids 1–4
(all served by the store, so every `cache.get` on the trace succeeds), the
short-circuit return of `HNSW::query` fires while `top_k` was never pruned (its length
never exceeded `k`), so it was never sorted: the entry's neighbors enter at distances
`1/4` and `3/4`, the expansion of the next stack node admits a third candidate at
distance `1/2` which raises the counter to `ef`, and the returned distances are
`[1/4, 3/4, 1/2]`, not in ascending order. Only stored ids 1, 2 and 3 reach the
return's embedding fetch. -/
theorem claim_C2_counterexample :
    3 ≤ 3 ∧
    queryFn 100 scratchS2 scratchCache2 scratchQ2 3 3 =
      .early [(scratchF2, mkRat 1 4), (scratchF3, mkRat 3 4), (scratchF1, mkRat 1 2)] ∧
    ¬ ([(scratchF2, mkRat 1 4), (scratchF3, mkRat 3 4),
        (scratchF1, mkRat 1 2)].Pairwise fun a b => a.2 ≤ b.2) := by
  refine ⟨by decide, by decide, ?_⟩
  intro hp
  rcases List.pairwise_cons.mp hp with ⟨_, hp2⟩
  rcases List.pairwise_cons.mp hp2 with ⟨h34, _⟩
  have h5 := h34 (scratchF1, mkRat 1 2) (List.mem_singleton_self _)
  revert h5
  decide

/-- Claim C2 (corrected). For every index, query, `k` and `ef` with `ef ≥ k`,
`HNSW::query` returns at most `k` pairs on every return path; the pairs are sorted in
ascending distance order on the final return path, but the short-circuit return taken
when the candidate counter reaches `ef` may return them out of order (it skips the
final sort). -/
theorem claim_C2_amended (fuel : Nat) (h : HNSWState) (cache : Cache) (qry : Query)
    (k ef : Nat) (hk : k ≤ ef) :
    (∀ res, queryFn fuel h cache qry k ef = .final res →
      res.length ≤ k ∧ res.Pairwise fun a b => a.2 ≤ b.2) ∧
    (∀ res, queryFn fuel h cache qry k ef = .early res → res.length ≤ k) := by
  by_cases hl : h.layers = []
  · constructor
    · intro res he
      rw [queryFn, if_pos hl] at he
      cases he
      exact ⟨Nat.zero_le k, List.Pairwise.nil⟩
    · intro res he
      rw [queryFn, if_pos hl] at he
      cases he
  · have hef : ¬ ef < k := not_lt.mpr hk
    rcases hent : h.entry_id with _ | e
    · constructor
      · intro res he
        rw [queryFn, if_neg hl, if_neg hef] at he
        simp only [hent] at he
        cases he
      · intro res he
        rw [queryFn, if_neg hl, if_neg hef] at he
        simp only [hent] at he
        cases he
    · constructor
      · intro res he
        rw [queryFn, if_neg hl, if_neg hef] at he
        simp only [hent] at he
        exact (layersLoop_len cache qry k ef fuel h.layers.reverse
          (List.replicate h.size false) (List.replicate h.size false) [] 0 e
          (Nat.zero_le k)).1 res he
      · intro res he
        rw [queryFn, if_neg hl, if_neg hef] at he
        simp only [hent] at he
        exact (layersLoop_len cache qry k ef fuel h.layers.reverse
          (List.replicate h.size false) (List.replicate h.size false) [] 0 e
          (Nat.zero_le k)).2 res he

/-- Witness for claim C2 on the concrete two-node index with `k = 1 ≤ ef = 1`: the
returned sequences respect the length bound and the final-path ordering. -/
theorem claim_C2_witness :
    (∀ res, queryFn 100 scratchS1 scratchCache1 scratchQ1 1 1 = .final res →
      res.length ≤ 1 ∧ res.Pairwise fun a b => a.2 ≤ b.2) ∧
    (∀ res, queryFn 100 scratchS1 scratchCache1 scratchQ1 1 1 = .early res →
      res.length ≤ 1) :=
  claim_C2_amended 100 scratchS1 scratchCache1 scratchQ1 1 1 (by decide)

theorem neighborScan_pass (cache : Cache) (qry : Query) :
    ∀ (edges : List (Nat × ℚ)) (bl vis : List Bool) (l : List (Nat × ℚ))
      (bl2 : List Bool),
      neighborScan cache qry edges bl vis = some (l, bl2) →
      ∀ p ∈ l, filtersPass qry.filters (cache (p.1 + 1)).source_file.meta = true := by
  intro edges
  induction edges with
  | nil =>
      intro bl vis l bl2 h p hp
      rw [neighborScan] at h
      cases h
      cases hp
  | cons hd rest ih =>
      rcases hd with ⟨n, d⟩
      intro bl vis l bl2 h p hp
      rw [neighborScan] at h
      by_cases hn0 : n = 0
      · rw [if_pos hn0] at h
        cases h
      · rw [if_neg hn0] at h
        simp only at h
        rcases hbl : bl.get? (n - 1) with _ | b
        · rw [hbl] at h
          cases h
        · simp only [hbl] at h
          cases b with
          | true =>
              rw [if_pos rfl] at h
              exact ih bl vis l bl2 h p hp
          | false =>
              rw [if_neg Bool.false_ne_true] at h
              rcases hv : vis.get? (n - 1) with _ | v
              · simp only [hv] at h
                cases h
              · simp only [hv] at h
                by_cases hcond :
                    (!v && filtersPass qry.filters
                      (cache (n - 1 + 1)).source_file.meta) = true
                · rw [if_pos hcond] at h
                  rcases hrec : neighborScan cache qry rest bl vis with _ | pr
                  · rw [hrec] at h
                    cases h
                  · rcases pr with ⟨l3, bl3⟩
                    rw [hrec] at h
                    rw [Option.some_inj, Prod.mk.injEq] at h
                    rcases h with ⟨hl, hbl⟩
                    subst hl
                    rcases List.mem_cons.mp hp with h1 | h1
                    · rw [h1]
                      have hc2 := hcond
                      simp only [Bool.and_eq_true] at hc2
                      exact hc2.2
                    · exact ih bl vis l3 bl3 hrec p h1
                · rw [if_neg hcond] at h
                  exact ih _ vis l bl2 h p hp

theorem pushLoop_mem (cache : Cache) (k ef : Nat) (Pq : Nat × ℚ → Prop) :
    ∀ (nbrs : List (Nat × ℚ)) (vis bl : List Bool) (topK : List (Nat × ℚ))
      (count : Nat) (stack : List Nat)
      (r : (List Bool × List (Nat × ℚ) × Nat × List Nat) ⊕ List (Embedding × ℚ)),
      (∀ p ∈ nbrs, Pq p) → (∀ p ∈ topK, Pq p) →
      pushLoop cache k ef nbrs vis bl topK count stack = some r →
      ∀ vis2 topK2 count2 stack2, r = .inl (vis2, topK2, count2, stack2) →
        ∀ p ∈ topK2, Pq p := by
  intro nbrs
  induction nbrs with
  | nil =>
      intro vis bl topK count stack r _ hK h vis2 topK2 count2 stack2 he p hp
      rw [pushLoop] at h
      cases h
      cases he
      exact hK p hp
  | cons hd rest ih =>
      rcases hd with ⟨nb, d⟩
      intro vis bl topK count stack r hN hK h vis2 topK2 count2 stack2 he p hp
      rw [pushLoop] at h
      rcases hv : vis.get? nb with _ | v
      · simp only [hv] at h
        cases h
      · rcases hb : bl.get? nb with _ | b
        · simp only [hv, hb] at h
          cases h
        · simp only [hv, hb] at h
          have hKpush : ∀ p ∈ prune k (topK ++ [(nb, d)]), Pq p := by
            intro p hp2
            rcases List.mem_append.mp (mem_prune hp2) with h1 | h1
            · exact hK p h1
            · rcases List.mem_singleton.mp h1 with h2
              exact h2 ▸ hN (nb, d) (List.mem_cons_self _ _)
          have hKstay : ∀ p ∈ prune k topK, Pq p := fun p hp2 => hK p (mem_prune hp2)
          have hNrest : ∀ p ∈ rest, Pq p := fun p hp2 =>
            hN p (List.mem_cons_of_mem _ hp2)
          by_cases hcond : (!v && !b && decide (count < ef)) = true
          · rw [if_pos hcond] at h
            by_cases hef : ef ≤ count + 1
            · rw [if_pos hef] at h
              cases h
              cases he
            · rw [if_neg hef] at h
              exact ih _ _ _ _ _ r hNrest hKpush h vis2 topK2 count2 stack2 he p hp
          · rw [if_neg hcond] at h
            by_cases hef : ef ≤ count
            · rw [if_pos hef] at h
              cases h
              cases he
            · rw [if_neg hef] at h
              exact ih _ _ _ _ _ r hNrest hKstay h vis2 topK2 count2 stack2 he p hp

theorem whileStack_pass (cache : Cache) (qry : Query) (k ef : Nat) (layer : Graph) :
    ∀ (fuel : Nat) (stack : List Nat) (vis bl : List Bool) (topK : List (Nat × ℚ))
      (count current : Nat),
      (∀ p ∈ topK, filtersPass qry.filters (cache (p.1 + 1)).source_file.meta = true) →
      ∀ vis2 bl2 topK2 count2 current2,
        whileStack cache qry k ef layer fuel stack vis bl topK count current =
          .cont vis2 bl2 topK2 count2 current2 →
        ∀ p ∈ topK2,
          filtersPass qry.filters (cache (p.1 + 1)).source_file.meta = true := by
  intro fuel
  induction fuel with
  | zero =>
      intro stack vis bl topK count current _ vis2 bl2 topK2 count2 current2 he
      rw [whileStack] at he
      cases he
  | succ fuel ih =>
      intro stack vis bl topK count current hK vis2 bl2 topK2 count2 current2 he
      cases stack with
      | nil =>
          rw [whileStack] at he
          cases he
          exact hK
      | cons c rest =>
          rw [whileStack] at he
          rcases hg : Graph.get layer c with _ | edges
          · rw [hg] at he
            exact ih rest vis bl topK count c hK _ _ _ _ _ he
          · rw [hg] at he
            rcases hn : neighborScan cache qry edges bl vis with _ | pr
            · simp only [hn] at he
              cases he
            · rcases pr with ⟨scanned, bl3⟩
              simp only [hn] at he
              rcases hp : pushLoop cache k ef (sortByDist scanned) vis bl3 topK count
                  rest with _ | r
              · simp only [hp] at he
                cases he
              · rcases r with ⟨vis3, topK3, count3, stack3⟩ | res3
                · simp only [hp] at he
                  have hscan : ∀ p ∈ sortByDist scanned,
                      filtersPass qry.filters (cache (p.1 + 1)).source_file.meta =
                        true := fun p hp2 =>
                    neighborScan_pass cache qry edges bl vis scanned bl3 hn p
                      (mem_sortByDist hp2)
                  have hK3 : ∀ p ∈ topK3,
                      filtersPass qry.filters (cache (p.1 + 1)).source_file.meta =
                        true :=
                    pushLoop_mem cache k ef _ _ _ _ _ _ _ (Sum.inl (vis3, topK3, count3, stack3)) hscan hK hp _ _ _ _ rfl
                  exact ih stack3 vis3 bl3 topK3 count3 c hK3 _ _ _ _ _ he
                · simp only [hp] at he
                  cases he

theorem layersLoop_pass (cache : Cache) (qry : Query) (k ef fuel : Nat) :
    ∀ (layers : List Graph) (vis bl : List Bool) (topK : List (Nat × ℚ))
      (count current : Nat),
      (∀ p ∈ topK, filtersPass qry.filters (cache (p.1 + 1)).source_file.meta = true) →
      ∀ res, layersLoop cache qry k ef fuel layers vis bl topK count current =
        .final res →
      ∀ pr ∈ res, filtersPass qry.filters pr.1.source_file.meta = true := by
  intro layers
  induction layers with
  | nil =>
      intro vis bl topK count current hK res he pr hpr
      rw [layersLoop] at he
      cases he
      rcases List.mem_map.mp hpr with ⟨p, hp, hpe⟩
      rw [← hpe]
      exact hK p (mem_sortByDist hp)
  | cons layer restLayers ih =>
      intro vis bl topK count current hK res he pr hpr
      by_cases he0 : layer = ([] : Graph)
      · rw [layersLoop, if_pos he0] at he
        exact ih vis bl topK count current hK res he pr hpr
      · rw [layersLoop, if_neg he0] at he
        rcases hw : whileStack cache qry k ef layer fuel [current] vis bl topK count
            current with ⟨vis2, bl2, topK2, count2, current2⟩ | res2 | _ | _
        · have hK2 : ∀ p ∈ sortByDist topK2,
              filtersPass qry.filters (cache (p.1 + 1)).source_file.meta = true :=
            fun p hp =>
              whileStack_pass cache qry k ef layer fuel [current] vis bl topK count
                current hK _ _ _ _ _ hw p (mem_sortByDist hp)
          simp only [hw] at he
          rcases hh : (sortByDist topK2).head? with _ | p0
          · rw [hh] at he
            exact ih _ _ _ _ _ hK2 res he pr hpr
          · rw [hh] at he
            exact ih _ _ _ _ _ hK2 res he pr hpr
        · simp only [hw] at he
          cases he
        · simp only [hw] at he
          cases he
        · simp only [hw] at he
          cases he

/-- Claim C1 counterexample: with one `eq tag` filter on the two-node index, the
short-circuit return of `HNSW::query` fetches `cache.get(node)` without restoring the
`+ 1`, so it returns the embedding with id 1 — whose only tag is `"other"` — even
though the candidate admitted through the filter was the id-2 embedding tagged
`"tag"`. The returned pair violates the filter. -/
theorem claim_C1_counterexample :
    queryFn 100 scratchS1 scratchCache1 scratchQ1 1 1 = .early [(scratchE1, 0)] ∧
    (⟨.equal, "tag"⟩ : Filter) ∈ scratchQ1.filters ∧
    "other" ∈ scratchE1.source_file.meta ∧
    Filter.compare ⟨.equal, "tag"⟩ "other" = false := by
  refine ⟨by decide, by decide, by decide, by decide⟩

/-- Claim C1 (corrected). On the final return path (the return after the layer
descent) every `(embedding, distance)` pair returned by `HNSW::query` satisfies every
filter against every one of the returned embedding's metadata tags; the short-circuit
return taken when the candidate counter reaches `ef` does not have this property,
because it maps a stored id `n` to `cache.get(n)` instead of `cache.get(n + 1)` and so
returns an embedding other than the one that passed the filters. -/
theorem claim_C1_amended (fuel : Nat) (h : HNSWState) (cache : Cache) (qry : Query)
    (k ef : Nat) (res : List (Embedding × ℚ))
    (he : queryFn fuel h cache qry k ef = .final res) :
    ∀ pr ∈ res, ∀ f ∈ qry.filters, ∀ m ∈ pr.1.source_file.meta,
      f.compare m = true := by
  intro pr hpr f hf m hm
  have hpass : filtersPass qry.filters pr.1.source_file.meta = true := by
    by_cases hl : h.layers = []
    · rw [queryFn, if_pos hl] at he
      cases he
      cases hpr
    · by_cases hef : ef < k
      · rw [queryFn, if_neg hl, if_pos hef] at he
        cases he
      · rcases hent : h.entry_id with _ | e
        · rw [queryFn, if_neg hl, if_neg hef] at he
          simp only [hent] at he
          cases he
        · rw [queryFn, if_neg hl, if_neg hef] at he
          simp only [hent] at he
          exact layersLoop_pass cache qry k ef fuel h.layers.reverse
            (List.replicate h.size false) (List.replicate h.size false) [] 0 e
            (by intro p hp; cases hp) res he pr hpr
  rw [filtersPass, List.all_eq_true] at hpass
  have h2 := hpass f hf
  rw [List.all_eq_true] at h2
  exact h2 m hm

/-- Witness for claim C1: the filtered `eq tag` query with `k = 5`, `ef = 10` finishes
on the final return path with the id-2 embedding, and the result satisfies the filter
on every tag. -/
theorem claim_C1_witness :
    queryFn 100 scratchS1 scratchCache1 scratchQ1 5 10 = .final [(scratchE2, 0)] ∧
    ∀ f ∈ scratchQ1.filters, ∀ m ∈ scratchE2.source_file.meta,
      f.compare m = true :=
  ⟨by decide, fun f hf m hm =>
    claim_C1_amended 100 scratchS1 scratchCache1 scratchQ1 5 10 [(scratchE2, 0)]
      (by decide) (scratchE2, 0) (List.mem_singleton_self _) f hf m hm⟩

theorem Graph.get_mem {L : Graph} {a : Nat} {lst : List (Nat × ℚ)}
    (h : Graph.get L a = some lst) : (a, lst) ∈ L := by
  induction L with
  | nil => cases h
  | cons hd rest ih =>
      rcases hd with ⟨hk, hl⟩
      rw [get_cons] at h
      by_cases h2 : hk = a
      · rw [if_pos h2] at h
        cases h
        exact h2 ▸ List.mem_cons_self _ _
      · rw [if_neg h2] at h
        exact List.mem_cons_of_mem _ (ih h)

theorem neighborScan_bl (cache : Cache) (qry : Query) :
    ∀ (edges : List (Nat × ℚ)) (bl vis : List Bool) (l : List (Nat × ℚ))
      (bl2 : List Bool),
      neighborScan cache qry edges bl vis = some (l, bl2) →
      bl2.length = bl.length := by
  intro edges
  induction edges with
  | nil =>
      intro bl vis l bl2 h
      rw [neighborScan] at h
      cases h
      rfl
  | cons hd rest ih =>
      rcases hd with ⟨n, d⟩
      intro bl vis l bl2 h
      rw [neighborScan] at h
      by_cases hn0 : n = 0
      · rw [if_pos hn0] at h
        cases h
      · rw [if_neg hn0] at h
        simp only at h
        rcases hbl : bl.get? (n - 1) with _ | b
        · rw [hbl] at h
          cases h
        · simp only [hbl] at h
          cases b with
          | true =>
              rw [if_pos rfl] at h
              exact ih bl vis l bl2 h
          | false =>
              rw [if_neg Bool.false_ne_true] at h
              rcases hv : vis.get? (n - 1) with _ | v
              · simp only [hv] at h
                cases h
              · simp only [hv] at h
                by_cases hcond :
                    (!v && filtersPass qry.filters
                      (cache (n - 1 + 1)).source_file.meta) = true
                · rw [if_pos hcond] at h
                  rcases hrec : neighborScan cache qry rest bl vis with _ | pr
                  · rw [hrec] at h
                    cases h
                  · rcases pr with ⟨l3, bl3⟩
                    rw [hrec] at h
                    rw [Option.some_inj, Prod.mk.injEq] at h
                    rcases h with ⟨_, hbl2⟩
                    rw [← hbl2]
                    exact ih bl vis l3 bl3 hrec
                · rw [if_neg hcond] at h
                  rw [← List.length_set bl (n - 1) true]
                  exact ih _ vis l bl2 h

theorem neighborScan_vals (cache : Cache) (qry : Query) :
    ∀ (edges : List (Nat × ℚ)) (bl vis : List Bool) (l : List (Nat × ℚ))
      (bl2 : List Bool),
      (∀ p ∈ edges, 1 ≤ p.1 ∧ p.1 ≤ bl.length) →
      neighborScan cache qry edges bl vis = some (l, bl2) →
      ∀ p ∈ l, p.1 < bl.length := by
  intro edges
  induction edges with
  | nil =>
      intro bl vis l bl2 _ h p hp
      rw [neighborScan] at h
      cases h
      cases hp
  | cons hd rest ih =>
      rcases hd with ⟨n, d⟩
      intro bl vis l bl2 hbound h p hp
      have hbrest : ∀ p ∈ rest, 1 ≤ p.1 ∧ p.1 ≤ bl.length := fun p hp2 =>
        hbound p (List.mem_cons_of_mem _ hp2)
      rw [neighborScan] at h
      by_cases hn0 : n = 0
      · rw [if_pos hn0] at h
        cases h
      · rw [if_neg hn0] at h
        simp only at h
        rcases hbl : bl.get? (n - 1) with _ | b
        · rw [hbl] at h
          cases h
        · simp only [hbl] at h
          cases b with
          | true =>
              rw [if_pos rfl] at h
              exact ih bl vis l bl2 hbrest h p hp
          | false =>
              rw [if_neg Bool.false_ne_true] at h
              rcases hv : vis.get? (n - 1) with _ | v
              · simp only [hv] at h
                cases h
              · simp only [hv] at h
                by_cases hcond :
                    (!v && filtersPass qry.filters
                      (cache (n - 1 + 1)).source_file.meta) = true
                · rw [if_pos hcond] at h
                  rcases hrec : neighborScan cache qry rest bl vis with _ | pr
                  · rw [hrec] at h
                    cases h
                  · rcases pr with ⟨l3, bl3⟩
                    rw [hrec] at h
                    rw [Option.some_inj, Prod.mk.injEq] at h
                    rcases h with ⟨hl, _⟩
                    subst hl
                    rcases List.mem_cons.mp hp with h1 | h1
                    · rw [h1]
                      obtain ⟨h2, h3⟩ := hbound (n, d) (List.mem_cons_self _ _)
                      simp only
                      omega
                    · exact ih bl vis l3 bl3 hbrest hrec p h1
                · rw [if_neg hcond] at h
                  have := ih _ vis l bl2
                    (by rw [List.length_set]; exact hbrest) h p hp
                  rw [List.length_set] at this
                  exact this

theorem neighborScan_ne_none (cache : Cache) (qry : Query) :
    ∀ (edges : List (Nat × ℚ)) (bl vis : List Bool),
      vis.length = bl.length →
      (∀ p ∈ edges, 1 ≤ p.1 ∧ p.1 ≤ bl.length) →
      neighborScan cache qry edges bl vis ≠ none := by
  intro edges
  induction edges with
  | nil =>
      intro bl vis _ _ h
      rw [neighborScan] at h
      cases h
  | cons hd rest ih =>
      rcases hd with ⟨n, d⟩
      intro bl vis hlen hbound h
      have hbrest : ∀ p ∈ rest, 1 ≤ p.1 ∧ p.1 ≤ bl.length := fun p hp2 =>
        hbound p (List.mem_cons_of_mem _ hp2)
      obtain ⟨hn1, hn2⟩ := hbound (n, d) (List.mem_cons_self _ _)
      rw [neighborScan] at h
      rw [if_neg (show ¬ n = 0 by omega)] at h
      simp only at h
      have hblt : n - 1 < bl.length := by omega
      have hvlt : n - 1 < vis.length := by omega
      rcases hbl : bl.get? (n - 1) with _ | b
      · rw [List.get?_eq_none] at hbl
        omega
      · simp only [hbl] at h
        cases b with
        | true => exact ih bl vis hlen hbrest h
        | false =>
            rw [if_neg Bool.false_ne_true] at h
            rcases hv : vis.get? (n - 1) with _ | v
            · rw [List.get?_eq_none] at hv
              omega
            · simp only [hv] at h
              by_cases hcond :
                  (!v && filtersPass qry.filters
                    (cache (n - 1 + 1)).source_file.meta) = true
              · rw [if_pos hcond] at h
                rcases hrec : neighborScan cache qry rest bl vis with _ | pr
                · exact ih bl vis hlen hbrest hrec
                · rcases pr with ⟨l3, bl3⟩
                  rw [hrec] at h
                  cases h
              · rw [if_neg hcond] at h
                refine ih (bl.set (n - 1) true) vis ?_ ?_ h
                · rw [List.length_set]
                  exact hlen
                · rw [List.length_set]
                  exact hbrest

theorem pushLoop_ok (cache : Cache) (k ef : Nat) :
    ∀ (nbrs : List (Nat × ℚ)) (vis bl : List Bool) (topK : List (Nat × ℚ))
      (count : Nat) (stack : List Nat),
      (∀ p ∈ nbrs, p.1 < vis.length) →
      vis.length = bl.length →
      pushLoop cache k ef nbrs vis bl topK count stack ≠ none ∧
      (∀ vis2 topK2 count2 stack2,
        pushLoop cache k ef nbrs vis bl topK count stack =
          some (.inl (vis2, topK2, count2, stack2)) →
        vis2.length = vis.length) := by
  intro nbrs
  induction nbrs with
  | nil =>
      intro vis bl topK count stack _ _
      constructor
      · intro h
        rw [pushLoop] at h
        cases h
      · intro vis2 topK2 count2 stack2 h
        rw [pushLoop] at h
        cases h
        rfl
  | cons hd rest ih =>
      rcases hd with ⟨nb, d⟩
      intro vis bl topK count stack hbound hlen
      have hblt : nb < vis.length := (hbound (nb, d) (List.mem_cons_self _ _))
      have hbrest : ∀ p ∈ rest, p.1 < vis.length := fun p hp =>
        hbound p (List.mem_cons_of_mem _ hp)
      rcases hv : vis.get? nb with _ | v
      · rw [List.get?_eq_none] at hv
        omega
      · rcases hb : bl.get? nb with _ | b
        · rw [List.get?_eq_none] at hb
          omega
        · constructor
          · intro h
            rw [pushLoop] at h
            simp only [hv, hb] at h
            by_cases hcond : (!v && !b && decide (count < ef)) = true
            · rw [if_pos hcond] at h
              by_cases hef : ef ≤ count + 1
              · rw [if_pos hef] at h
                cases h
              · rw [if_neg hef] at h
                refine (ih (vis.set nb true) bl _ _ _ ?_ ?_).1 h
                · rw [List.length_set]
                  exact hbrest
                · rw [List.length_set]
                  exact hlen
            · rw [if_neg hcond] at h
              by_cases hef : ef ≤ count
              · rw [if_pos hef] at h
                cases h
              · rw [if_neg hef] at h
                exact (ih vis bl _ _ _ hbrest hlen).1 h
          · intro vis2 topK2 count2 stack2 h
            rw [pushLoop] at h
            simp only [hv, hb] at h
            by_cases hcond : (!v && !b && decide (count < ef)) = true
            · rw [if_pos hcond] at h
              by_cases hef : ef ≤ count + 1
              · rw [if_pos hef] at h
                cases h
              · rw [if_neg hef] at h
                have := (ih (vis.set nb true) bl _ _ _
                  (by rw [List.length_set]; exact hbrest)
                  (by rw [List.length_set]; exact hlen)).2 _ _ _ _ h
                rw [List.length_set] at this
                exact this
            · rw [if_neg hcond] at h
              by_cases hef : ef ≤ count
              · rw [if_pos hef] at h
                cases h
              · rw [if_neg hef] at h
                exact (ih vis bl _ _ _ hbrest hlen).2 _ _ _ _ h

theorem whileStack_ok (cache : Cache) (qry : Query) (k ef : Nat) (layer : Graph)
    (size : Nat)
    (hwf : ∀ pr ∈ layer, ∀ p ∈ pr.2, 1 ≤ p.1 ∧ p.1 ≤ size) :
    ∀ (fuel : Nat) (stack : List Nat) (vis bl : List Bool) (topK : List (Nat × ℚ))
      (count current : Nat),
      vis.length = size → bl.length = size →
      whileStack cache qry k ef layer fuel stack vis bl topK count current ≠
        .panicked ∧
      (∀ vis2 bl2 topK2 count2 current2,
        whileStack cache qry k ef layer fuel stack vis bl topK count current =
          .cont vis2 bl2 topK2 count2 current2 →
        vis2.length = size ∧ bl2.length = size) := by
  intro fuel
  induction fuel with
  | zero =>
      intro stack vis bl topK count current _ _
      constructor
      · intro h
        rw [whileStack] at h
        cases h
      · intro vis2 bl2 topK2 count2 current2 h
        rw [whileStack] at h
        cases h
  | succ fuel ih =>
      intro stack vis bl topK count current hvl hbl
      cases stack with
      | nil =>
          constructor
          · intro h
            rw [whileStack] at h
            cases h
          · intro vis2 bl2 topK2 count2 current2 h
            rw [whileStack] at h
            cases h
            exact ⟨hvl, hbl⟩
      | cons c rest =>
          rcases hg : Graph.get layer c with _ | edges
          · constructor
            · intro h
              rw [whileStack] at h
              rw [hg] at h
              exact (ih rest vis bl topK count c hvl hbl).1 h
            · intro vis2 bl2 topK2 count2 current2 h
              rw [whileStack] at h
              rw [hg] at h
              exact (ih rest vis bl topK count c hvl hbl).2 _ _ _ _ _ h
          · have hedge : ∀ p ∈ edges, 1 ≤ p.1 ∧ p.1 ≤ bl.length := by
              intro p hp
              obtain ⟨h1, h2⟩ := hwf (c, edges) (Graph.get_mem hg) p hp
              exact ⟨h1, by omega⟩
            rcases hn : neighborScan cache qry edges bl vis with _ | pr
            · exact absurd hn (neighborScan_ne_none cache qry edges bl vis
                (by omega) hedge)
            · rcases pr with ⟨scanned, bl3⟩
              have hbl3 : bl3.length = size := by
                rw [neighborScan_bl cache qry edges bl vis scanned bl3 hn]
                exact hbl
              have hsvals : ∀ p ∈ sortByDist scanned, p.1 < vis.length := by
                intro p hp
                have := neighborScan_vals cache qry edges bl vis scanned bl3 hedge hn
                  p (mem_sortByDist hp)
                omega
              rcases hp : pushLoop cache k ef (sortByDist scanned) vis bl3 topK count
                  rest with _ | r
              · exact absurd hp ((pushLoop_ok cache k ef (sortByDist scanned) vis bl3
                  topK count rest hsvals (by omega)).1)
              · rcases r with ⟨vis3, topK3, count3, stack3⟩ | res3
                · have hvis3 : vis3.length = size := by
                    rw [(pushLoop_ok cache k ef (sortByDist scanned) vis bl3 topK
                      count rest hsvals (by omega)).2 _ _ _ _ hp]
                    exact hvl
                  constructor
                  · intro h
                    rw [whileStack] at h
                    rw [hg] at h
                    simp only [hn, hp] at h
                    exact (ih stack3 vis3 bl3 topK3 count3 c hvis3 hbl3).1 h
                  · intro vis2 bl2 topK2 count2 current2 h
                    rw [whileStack] at h
                    rw [hg] at h
                    simp only [hn, hp] at h
                    exact (ih stack3 vis3 bl3 topK3 count3 c hvis3 hbl3).2 _ _ _ _ _ h
                · constructor
                  · intro h
                    rw [whileStack] at h
                    rw [hg] at h
                    simp only [hn, hp] at h
                    cases h
                  · intro vis2 bl2 topK2 count2 current2 h
                    rw [whileStack] at h
                    rw [hg] at h
                    simp only [hn, hp] at h
                    cases h

theorem layersLoop_ne_oob (cache : Cache) (qry : Query) (k ef fuel size : Nat) :
    ∀ (layers : List Graph) (vis bl : List Bool) (topK : List (Nat × ℚ))
      (count current : Nat),
      (∀ layer ∈ layers, ∀ pr ∈ layer, ∀ p ∈ pr.2, 1 ≤ p.1 ∧ p.1 ≤ size) →
      vis.length = size → bl.length = size →
      layersLoop cache qry k ef fuel layers vis bl topK count current ≠
        .panicked .oob := by
  intro layers
  induction layers with
  | nil =>
      intro vis bl topK count current _ _ _ h
      rw [layersLoop] at h
      cases h
  | cons layer restLayers ih =>
      intro vis bl topK count current hwf hvl hbl h
      have hwfrest : ∀ l2 ∈ restLayers, ∀ pr ∈ l2, ∀ p ∈ pr.2,
          1 ≤ p.1 ∧ p.1 ≤ size := fun l2 hl2 =>
        hwf l2 (List.mem_cons_of_mem _ hl2)
      by_cases he0 : layer = ([] : Graph)
      · rw [layersLoop, if_pos he0] at h
        exact ih vis bl topK count current hwfrest hvl hbl h
      · rw [layersLoop, if_neg he0] at h
        have hwflayer := hwf layer (List.mem_cons_self _ _)
        rcases hw : whileStack cache qry k ef layer fuel [current] vis bl topK count
            current with ⟨vis2, bl2, topK2, count2, current2⟩ | res2 | _ | _
        · obtain ⟨hv2, hb2⟩ := (whileStack_ok cache qry k ef layer size hwflayer fuel
            [current] vis bl topK count current hvl hbl).2 _ _ _ _ _ hw
          simp only [hw] at h
          rcases hh : (sortByDist topK2).head? with _ | p0
          · rw [hh] at h
            exact ih _ _ _ _ _ hwfrest hv2 hb2 h
          · rw [hh] at h
            exact ih _ _ _ _ _ hwfrest hv2 hb2 h
        · simp only [hw] at h
          cases h
        · exact absurd hw ((whileStack_ok cache qry k ef layer size hwflayer fuel
            [current] vis bl topK count current hvl hbl).1)
        · simp only [hw] at h
          cases h

/-- Claim C10 counterexample: the state reached by inserting the three embeddings with
ids 1, 2, 3 and then removing node 2 is reachable through the public operations, yet a
query on it panics with an out-of-bounds access: `size` is 2 so `visited` and
`blacklist` have two entries, but the surviving neighbor id 3 indexes `blacklist[2]`. -/
theorem claim_C10_counterexample :
    Reachable scratchGCache
      ⟨2, [[(1, [(3, mkRat 2 5)]), (3, [(1, mkRat 2 5)])]], some 1, [1]⟩ ∧
    queryFn 50 ⟨2, [[(1, [(3, mkRat 2 5)]), (3, [(1, mkRat 2 5)])]], some 1, [1]⟩
      scratchGCache ⟨⟨0, [1, 0], ⟨"", [], none⟩⟩, []⟩ 1 10 = .panicked .oob := by
  constructor
  · exact @Reachable.remove scratchGCache
      ⟨3, [[(1, [(2, 1), (3, mkRat 2 5)]), (2, [(1, 1), (3, mkRat 1 5)]),
        (3, [(2, mkRat 1 5), (1, mkRat 2 5)])]], some 1, [1]⟩
      ⟨2, [[(1, [(3, mkRat 2 5)]), (3, [(1, mkRat 2 5)])]], some 1, [1]⟩ 2
      (@Reachable.insert scratchGCache
        ⟨2, [[(1, [(2, 1)]), (2, [(1, 1)])]], some 1, [1]⟩
        ⟨3, [[(1, [(2, 1), (3, mkRat 2 5)]), (2, [(1, 1), (3, mkRat 1 5)]),
          (3, [(2, mkRat 1 5), (1, mkRat 2 5)])]], some 1, [1]⟩ 0 scratchG3 50
        (@Reachable.insert scratchGCache ⟨1, [[(1, [])]], some 1, [1]⟩
          ⟨2, [[(1, [(2, 1)]), (2, [(1, 1)])]], some 1, [1]⟩ 0 scratchG2 50
          (@Reachable.insert scratchGCache ⟨0, [], none, []⟩
            ⟨1, [[(1, [])]], some 1, [1]⟩ 0 scratchG1 50 Reachable.empty
            (by decide) (by decide) (by decide))
          (by decide) (by decide) (by decide))
        (by decide) (by decide) (by decide))
      (by decide)
  · decide

/-- Claim C10 (corrected). The bounds condition does not hold on every state reachable
by build, insert, and remove (`remove_node` decrements `size` while surviving ids keep
their values, as the counterexample shows); under the amended hypothesis that every
neighbor id `n` stored in any layer satisfies `1 ≤ n` and `n - 1 < size`, the indexing
of the `visited` and `blacklist` vectors stays in bounds and `HNSW::query` never
panics on them. -/
theorem claim_C10_amended (fuel : Nat) (h : HNSWState) (cache : Cache) (qry : Query)
    (k ef : Nat)
    (hwf : ∀ layer ∈ h.layers, ∀ pr ∈ layer, ∀ p ∈ pr.2, 1 ≤ p.1 ∧ p.1 ≤ h.size) :
    queryFn fuel h cache qry k ef ≠ .panicked .oob := by
  intro hq
  by_cases hl : h.layers = []
  · rw [queryFn, if_pos hl] at hq
    cases hq
  · by_cases hef : ef < k
    · rw [queryFn, if_neg hl, if_pos hef] at hq
      cases hq
    · rcases hent : h.entry_id with _ | e
      · rw [queryFn, if_neg hl, if_neg hef] at hq
        simp only [hent] at hq
        cases hq
      · rw [queryFn, if_neg hl, if_neg hef] at hq
        simp only [hent] at hq
        exact layersLoop_ne_oob cache qry k ef fuel h.size h.layers.reverse
          (List.replicate h.size false) (List.replicate h.size false) [] 0 e
          (fun layer hl2 => hwf layer (List.mem_reverse.mp hl2))
          (List.length_replicate _ _) (List.length_replicate _ _) hq

/-- Witness for claim C10: on the intact three-node index (ids 1, 2, 3 with
`size = 3`) every stored neighbor id is within bounds, and the query does not panic on
the `visited`/`blacklist` vectors. -/
theorem claim_C10_witness :
    queryFn 50 ⟨3, [[(1, [(2, 1), (3, mkRat 2 5)]), (2, [(1, 1), (3, mkRat 1 5)]),
        (3, [(2, mkRat 1 5), (1, mkRat 2 5)])]], some 1, [1]⟩
      scratchGCache ⟨⟨0, [1, 0], ⟨"", [], none⟩⟩, []⟩ 1 10 ≠ .panicked .oob :=
  claim_C10_amended 50
    ⟨3, [[(1, [(2, 1), (3, mkRat 2 5)]), (2, [(1, 1), (3, mkRat 1 5)]),
      (3, [(2, mkRat 1 5), (1, mkRat 2 5)])]], some 1, [1]⟩
    scratchGCache ⟨⟨0, [1, 0], ⟨"", [], none⟩⟩, []⟩ 1 10 (by decide)

/-- The keys of an association-list layer are distinct, as they are for the `HashMap`
of the code. -/
def NodupKeys (L : Graph) : Prop := (L.map Prod.fst).Nodup

/-- Layer symmetry: every stored edge `a → (b, d)` has a reverse edge `b → (a, d)`. -/
def SymLayer (L : Graph) : Prop :=
  ∀ a lst, Graph.get L a = some lst → ∀ p ∈ lst,
    ∃ lst2, Graph.get L p.1 = some lst2 ∧ (a, p.2) ∈ lst2

/-- The layer invariant maintained by the index operations: distinct keys and edge
symmetry. -/
def GoodLayer (L : Graph) : Prop := NodupKeys L ∧ SymLayer L

theorem goodLayer_nil : GoodLayer [] := by
  constructor
  · simp [NodupKeys]
  · intro a lst h
    cases h

theorem goodLayer_single (e : Nat) : GoodLayer [(e, [])] := by
  constructor
  · simp [NodupKeys]
  · intro a lst h p hp
    rw [get_cons] at h
    by_cases h2 : e = a
    · rw [if_pos h2] at h
      cases h
      cases hp
    · rw [if_neg h2] at h
      cases h

theorem get_of_mem_nodup {L : Graph} {a : Nat} {la : List (Nat × ℚ)}
    (hnd : NodupKeys L) (h : (a, la) ∈ L) : Graph.get L a = some la := by
  induction L with
  | nil => cases h
  | cons hd rest ih =>
      rcases hd with ⟨hk, hl⟩
      rcases List.pairwise_cons.mp hnd with ⟨hk2, hnd2⟩
      rcases List.mem_cons.mp h with h1 | h1
      · cases h1
        rw [get_cons, if_pos rfl]
      · rw [get_cons]
        by_cases h2 : hk = a
        · exfalso
          exact hk2 a (List.mem_map.mpr ⟨(a, la), h1, rfl⟩) h2
        · rw [if_neg h2]
          exact ih hnd2 h1

theorem mem_keys_of_get {L : Graph} {a : Nat} {la : List (Nat × ℚ)}
    (h : Graph.get L a = some la) : a ∈ L.map Prod.fst :=
  List.mem_map.mpr ⟨(a, la), Graph.get_mem h, rfl⟩

theorem mem_keys_setEntry {L : Graph} {k a : Nat} {v : List (Nat × ℚ)}
    (h : a ∈ (Graph.setEntry L k v).map Prod.fst) : a ∈ L.map Prod.fst ∨ a = k := by
  induction L with
  | nil =>
      simp only [Graph.setEntry, List.map_cons, List.map_nil, List.mem_singleton] at h
      exact Or.inr h
  | cons hd rest ih =>
      rcases hd with ⟨hk, hl⟩
      rw [setEntry_cons] at h
      by_cases h2 : hk = k
      · rw [if_pos h2] at h
        rcases List.mem_cons.mp h with h1 | h1
        · exact Or.inl (List.mem_cons.mpr (Or.inl h1))
        · exact Or.inl (List.mem_cons.mpr (Or.inr h1))
      · rw [if_neg h2] at h
        rcases List.mem_cons.mp h with h1 | h1
        · exact Or.inl (List.mem_cons.mpr (Or.inl h1))
        · rcases ih h1 with h3 | h3
          · exact Or.inl (List.mem_cons.mpr (Or.inr h3))
          · exact Or.inr h3

theorem mem_keys_entryAppend {L : Graph} {k a : Nat} {v : Nat × ℚ}
    (h : a ∈ (Graph.entryAppend L k v).map Prod.fst) : a ∈ L.map Prod.fst ∨ a = k := by
  induction L with
  | nil =>
      simp only [Graph.entryAppend, List.map_cons, List.map_nil, List.mem_singleton] at h
      exact Or.inr h
  | cons hd rest ih =>
      rcases hd with ⟨hk, hl⟩
      rw [entryAppend_cons] at h
      by_cases h2 : hk = k
      · rw [if_pos h2] at h
        rcases List.mem_cons.mp h with h1 | h1
        · exact Or.inl (List.mem_cons.mpr (Or.inl h1))
        · exact Or.inl (List.mem_cons.mpr (Or.inr h1))
      · rw [if_neg h2] at h
        rcases List.mem_cons.mp h with h1 | h1
        · exact Or.inl (List.mem_cons.mpr (Or.inl h1))
        · rcases ih h1 with h3 | h3
          · exact Or.inl (List.mem_cons.mpr (Or.inr h3))
          · exact Or.inr h3

theorem nodup_setEntry {L : Graph} {k : Nat} {v : List (Nat × ℚ)}
    (hnd : NodupKeys L) : NodupKeys (Graph.setEntry L k v) := by
  induction L with
  | nil => simp [Graph.setEntry, NodupKeys]
  | cons hd rest ih =>
      rcases hd with ⟨hk, hl⟩
      rcases List.pairwise_cons.mp hnd with ⟨hk2, hnd2⟩
      rw [NodupKeys, setEntry_cons]
      by_cases h2 : hk = k
      · rw [if_pos h2]
        exact hnd
      · rw [if_neg h2, List.map_cons]
        refine List.pairwise_cons.mpr ⟨?_, ih hnd2⟩
        intro b hb
        rcases mem_keys_setEntry hb with h3 | h3
        · exact hk2 b h3
        · rw [h3]
          exact h2

theorem nodup_entryAppend {L : Graph} {k : Nat} {v : Nat × ℚ}
    (hnd : NodupKeys L) : NodupKeys (Graph.entryAppend L k v) := by
  induction L with
  | nil => simp [Graph.entryAppend, NodupKeys]
  | cons hd rest ih =>
      rcases hd with ⟨hk, hl⟩
      rcases List.pairwise_cons.mp hnd with ⟨hk2, hnd2⟩
      rw [NodupKeys, entryAppend_cons]
      by_cases h2 : hk = k
      · rw [if_pos h2]
        exact hnd
      · rw [if_neg h2, List.map_cons]
        refine List.pairwise_cons.mpr ⟨?_, ih hnd2⟩
        intro b hb
        rcases mem_keys_entryAppend hb with h3 | h3
        · exact hk2 b h3
        · rw [h3]
          exact h2

theorem nodup_backedgeFold {qid : Nat} {rs : List (ℚ × Nat)} {L : Graph}
    (hnd : NodupKeys L) : NodupKeys (backedgeFold qid rs L) := by
  induction rs generalizing L with
  | nil => exact hnd
  | cons p rest ih => exact ih (nodup_entryAppend hnd)

theorem mem_keys_backedgeFold {qid : Nat} {rs : List (ℚ × Nat)} {L : Graph} {a : Nat}
    (h : a ∈ (backedgeFold qid rs L).map Prod.fst) :
    a ∈ L.map Prod.fst ∨ ∃ d, (d, a) ∈ rs := by
  induction rs generalizing L with
  | nil => exact Or.inl h
  | cons p rest ih =>
      rcases ih h with h1 | h1
      · rcases mem_keys_entryAppend h1 with h2 | h2
        · exact Or.inl h2
        · exact Or.inr ⟨p.1, by rw [h2]; exact List.mem_cons_self _ _⟩
      · rcases h1 with ⟨d, hd⟩
        exact Or.inr ⟨d, List.mem_cons_of_mem _ hd⟩

theorem backedgeFold_cons (qid : Nat) (p : ℚ × Nat) (rest : List (ℚ × Nat))
    (L : Graph) :
    backedgeFold qid (p :: rest) L =
      backedgeFold qid rest (Graph.entryAppend L p.2 (qid, p.1)) := rfl

theorem entryAppend_get_inv {L : Graph} {k a : Nat} {v : Nat × ℚ}
    {la : List (Nat × ℚ)} {x : Nat × ℚ}
    (h : Graph.get (Graph.entryAppend L k v) a = some la) (hx : x ∈ la) :
    (∃ la0, Graph.get L a = some la0 ∧ x ∈ la0) ∨ (a = k ∧ x = v) := by
  induction L with
  | nil =>
      simp only [Graph.entryAppend, get_cons] at h
      by_cases h2 : k = a
      · rw [if_pos h2] at h
        cases h
        rcases List.mem_singleton.mp hx with h3
        exact Or.inr ⟨h2.symm, h3⟩
      · rw [if_neg h2] at h
        cases h
  | cons hd rest ih =>
      rcases hd with ⟨hk, hl⟩
      rw [entryAppend_cons] at h
      by_cases h2 : hk = k
      · rw [if_pos h2, get_cons] at h
        by_cases h3 : hk = a
        · rw [if_pos h3] at h
          cases h
          rcases List.mem_append.mp hx with h4 | h4
          · exact Or.inl ⟨hl, by rw [get_cons, if_pos h3], h4⟩
          · exact Or.inr ⟨h3.symm.trans h2, List.mem_singleton.mp h4⟩
        · rw [if_neg h3] at h
          exact Or.inl ⟨la, by rw [get_cons, if_neg h3]; exact h, hx⟩
      · rw [if_neg h2, get_cons] at h
        by_cases h3 : hk = a
        · rw [if_pos h3] at h
          cases h
          exact Or.inl ⟨la, by rw [get_cons, if_pos h3], hx⟩
        · rw [if_neg h3] at h
          rcases ih h with h4 | h4
          · rcases h4 with ⟨la0, hget0, hx0⟩
            exact Or.inl ⟨la0, by rw [get_cons, if_neg h3]; exact hget0, hx0⟩
          · exact Or.inr h4

theorem backedgeFold_get_inv {qid : Nat} {rs : List (ℚ × Nat)} {L : Graph} {a : Nat}
    {la : List (Nat × ℚ)} {x : Nat × ℚ}
    (h : Graph.get (backedgeFold qid rs L) a = some la) (hx : x ∈ la) :
    (∃ la0, Graph.get L a = some la0 ∧ x ∈ la0) ∨ (∃ d, x = (qid, d) ∧ (d, a) ∈ rs) := by
  induction rs generalizing L with
  | nil => exact Or.inl ⟨la, h, hx⟩
  | cons p rest ih =>
      rw [backedgeFold_cons] at h
      rcases ih h with h1 | h1
      · rcases h1 with ⟨la0, hget0, hx0⟩
        rcases entryAppend_get_inv hget0 hx0 with h2 | h2
        · exact Or.inl h2
        · rcases h2 with ⟨hak, hxv⟩
          refine Or.inr ⟨p.1, hxv, ?_⟩
          rw [hak]
          exact List.mem_cons_self _ _
      · rcases h1 with ⟨d, hxd, hd⟩
        exact Or.inr ⟨d, hxd, List.mem_cons_of_mem _ hd⟩

theorem finalize_eq (layer : Graph) (qid : Nat) (rs : List (ℚ × Nat)) :
    finalize layer qid rs =
      Graph.setEntry (backedgeFold qid rs layer) qid
        (rs.map fun p => (p.2, p.1)) := rfl

theorem finalize_good {layer : Graph} {qid : Nat} {rs : List (ℚ × Nat)}
    (hg : GoodLayer layer) (hfresh : Graph.get layer qid = none) :
    GoodLayer (finalize layer qid rs) := by
  rcases hg with ⟨hnd, hsym⟩
  rw [finalize_eq]
  constructor
  · exact nodup_setEntry (nodup_backedgeFold hnd)
  · intro a lst hget p hp
    rcases p with ⟨b, d⟩
    by_cases ha : a = qid
    · rw [ha, setEntry_get_self] at hget
      cases hget
      rcases List.mem_map.mp hp with ⟨q, hq, hqe⟩
      rcases q with ⟨qd, qn⟩
      simp only [Prod.mk.injEq] at hqe
      rcases hqe with ⟨hqn, hqd⟩
      by_cases hb : b = qid
      · refine ⟨rs.map fun p => (p.2, p.1), by rw [hb, setEntry_get_self], ?_⟩
        refine List.mem_map.mpr ⟨(qd, qn), hq, ?_⟩
        simp only [Prod.mk.injEq]
        exact ⟨hqn.trans (hb.trans ha.symm), hqd⟩
      · obtain ⟨la, hgetB, hmem⟩ := backedgeFold_mem qid rs layer qd qn hq
        refine ⟨la, ?_, ?_⟩
        · rw [setEntry_get_other _ _ _ _ hb]
          rw [hqn] at hgetB
          exact hgetB
        · rw [ha, ← hqd]
          exact hmem
    · rw [setEntry_get_other _ _ _ _ ha] at hget
      rcases backedgeFold_get_inv hget hp with h1 | h1
      · rcases h1 with ⟨la0, hget0, hp0⟩
        obtain ⟨lb0, hgetb0, hmem0⟩ := hsym a la0 hget0 (b, d) hp0
        have hbq : b ≠ qid := by
          intro hc
          rw [hc, hfresh] at hgetb0
          cases hgetb0
        obtain ⟨lb', hgetb', hmem'⟩ :=
          backedgeFold_mono qid rs layer b lb0 (a, d) hgetb0 hmem0
        refine ⟨lb', ?_, hmem'⟩
        rw [setEntry_get_other _ _ _ _ hbq]
        exact hgetb'
      · rcases h1 with ⟨d', hxd, hdrs⟩
        simp only [Prod.mk.injEq] at hxd
        rcases hxd with ⟨hbq, hdd⟩
        refine ⟨rs.map fun p => (p.2, p.1), by rw [hbq, setEntry_get_self], ?_⟩
        refine List.mem_map.mpr ⟨(d', a), hdrs, ?_⟩
        simp only [Prod.mk.injEq]
        exact ⟨trivial, hdd.symm⟩

theorem mem_sortLex_go :
    ∀ (l acc : List (ℚ × Nat)) (x : ℚ × Nat),
      x ∈ l.foldl (fun acc y => insLex y acc) acc → x ∈ l ∨ x ∈ acc := by
  intro l
  induction l with
  | nil => exact fun acc x h => Or.inr h
  | cons y ys ih =>
      intro acc x h
      rcases ih (insLex y acc) x h with h1 | h1
      · exact Or.inl (List.mem_cons_of_mem _ h1)
      · rcases mem_insLex h1 with h2 | h2
        · exact Or.inl (h2 ▸ List.mem_cons_self _ _)
        · exact Or.inr h2

theorem mem_sortLex {l : List (ℚ × Nat)} {x : ℚ × Nat} (h : x ∈ sortLex l) : x ∈ l := by
  rcases mem_sortLex_go l [] x h with h1 | h1
  · exact h1
  · cases h1

theorem processEdges_ids (cache : Cache) (q : Embedding) (ef : Nat) (layer : Graph)
    (furthest : Option ℚ) (S : Nat → Prop) :
    ∀ (edges : List (Nat × ℚ)) (cands results : List (ℚ × Nat)) (vis : List Nat),
      (∀ p ∈ edges, S p.1) → (∀ p ∈ cands, S p.2) → (∀ p ∈ results, S p.2) →
      (∀ p ∈ (processEdges cache q ef layer furthest edges cands results vis).1, S p.2) ∧
      (∀ p ∈ (processEdges cache q ef layer furthest edges cands results vis).2.1,
        S p.2) := by
  intro edges
  induction edges with
  | nil =>
      intro cands results vis _ hc hr
      exact ⟨hc, hr⟩
  | cons hd rest ih =>
      rcases hd with ⟨nid, d0⟩
      intro cands results vis he hc hr
      have hS : S nid := he (nid, d0) (List.mem_cons_self _ _)
      have herest : ∀ p ∈ rest, S p.1 := fun p hp => he p (List.mem_cons_of_mem _ hp)
      rw [processEdges]
      by_cases hv : nid ∈ vis
      · rw [if_pos hv]
        exact ih cands results vis herest hc hr
      · rw [if_neg hv]
        simp only
        by_cases hcond :
            (results.length < ef ||
              ltFurthest (qsub 1 (dot q (cache nid))) furthest) = true
        · rw [if_pos hcond]
          have hc2 : ∀ p ∈ insLex (qsub 1 (dot q (cache nid)), nid) cands, S p.2 := by
            intro p hp
            rcases mem_insLex hp with h1 | h1
            · rw [h1]
              exact hS
            · exact hc p h1
          have hr1 : ∀ p ∈ insLex (qsub 1 (dot q (cache nid)), nid) results, S p.2 := by
            intro p hp
            rcases mem_insLex hp with h1 | h1
            · rw [h1]
              exact hS
            · exact hr p h1
          by_cases hlen :
              ef < (insLex (qsub 1 (dot q (cache nid)), nid) results).length
          · rw [if_pos hlen]
            refine ih _ _ _ herest hc2 ?_
            intro p hp
            exact hr1 p (List.dropLast_sublist _ |>.mem hp)
          · rw [if_neg hlen]
            exact ih _ _ _ herest hc2 hr1
        · rw [if_neg hcond]
          exact ih cands results (nid :: vis) herest hc hr

theorem searchLoop_ids (cache : Cache) (q : Embedding) (ef : Nat) (layer : Graph)
    (S : Nat → Prop) (hT : ∀ pr ∈ layer, ∀ p ∈ pr.2, S p.1) :
    ∀ (fuel : Nat) (cands results : List (ℚ × Nat)) (vis : List Nat)
      (rs : List (ℚ × Nat)),
      (∀ p ∈ cands, S p.2) → (∀ p ∈ results, S p.2) →
      searchLoop cache q ef layer fuel cands results vis = some rs →
      ∀ p ∈ rs, S p.2 := by
  intro fuel
  induction fuel with
  | zero =>
      intro cands results vis rs _ _ h
      cases h
  | succ fuel ih =>
      intro cands results vis rs hc hr h
      rcases cands with _ | ⟨⟨cd, cid⟩, rest⟩
      · rw [searchLoop] at h
        cases h
        exact hr
      · rw [searchLoop] at h
        simp only at h
        by_cases hgt : gtFurthest cd (results.getLast?.map Prod.fst) = true
        · rw [if_pos hgt] at h
          cases h
          exact hr
        · rw [if_neg hgt] at h
          have hrest : ∀ p ∈ rest, S p.2 := fun p hp =>
            hc p (List.mem_cons_of_mem _ hp)
          have hedges : ∀ p ∈ (Graph.get layer cid).getD [], S p.1 := by
            rcases hg : Graph.get layer cid with _ | edges
            · intro p hp
              rw [Option.getD_none] at hp
              cases hp
            · intro p hp
              rw [Option.getD_some] at hp
              exact hT (cid, edges) (Graph.get_mem hg) p hp
          obtain ⟨hc2, hr2⟩ := processEdges_ids cache q ef layer
            (results.getLast?.map Prod.fst) S ((Graph.get layer cid).getD [])
            rest results vis hedges hrest hr
          exact ih _ _ _ rs hc2 hr2 h

theorem insert_into_layer_good {cache : Cache} {eid : Nat} {layer : Graph}
    {q : Embedding} {ef fuel : Nat} {L' : Graph} (hg : GoodLayer layer)
    (hfresh : Graph.get layer q.id = none)
    (h : insert_into_layer cache eid layer q ef fuel = some L') : GoodLayer L' := by
  by_cases hl : layer = []
  · rw [insert_into_layer, if_pos hl] at h
    cases h
    rw [hl]
    exact goodLayer_single q.id
  · rw [insert_into_layer_nonempty cache eid layer q ef fuel hl] at h
    rcases hs : searchLoop cache q ef layer fuel
        [(qsub 1 (dot q (cache eid)), eid)] [(qsub 1 (dot q (cache eid)), eid)]
        [eid] with _ | rs
    · rw [hs] at h
      cases h
    · rw [hs] at h
      have h2 : L' = finalize layer q.id (sortLex rs) := by simpa using h.symm
      rw [h2]
      exact finalize_good hg hfresh

theorem insert_into_layer_keys {cache : Cache} {eid : Nat} {layer : Graph}
    {q : Embedding} {ef fuel : Nat} {L' : Graph} (hg : GoodLayer layer)
    (h : insert_into_layer cache eid layer q ef fuel = some L') :
    ∀ a ∈ L'.map Prod.fst, a ∈ layer.map Prod.fst ∨ a = q.id ∨ a = eid := by
  by_cases hl : layer = []
  · rw [insert_into_layer, if_pos hl] at h
    cases h
    intro a ha
    rw [hl] at ha
    simp only [List.nil_append, List.map_cons, List.map_nil,
      List.mem_singleton] at ha
    exact Or.inr (Or.inl ha)
  · rw [insert_into_layer_nonempty cache eid layer q ef fuel hl] at h
    rcases hs : searchLoop cache q ef layer fuel
        [(qsub 1 (dot q (cache eid)), eid)] [(qsub 1 (dot q (cache eid)), eid)]
        [eid] with _ | rs
    · rw [hs] at h
      cases h
    · rw [hs] at h
      have h2 : L' = finalize layer q.id (sortLex rs) := by simpa using h.symm
      have hids : ∀ p ∈ rs, p.2 ∈ layer.map Prod.fst ∨ p.2 = eid := by
        refine searchLoop_ids cache q ef layer
          (fun n => n ∈ layer.map Prod.fst ∨ n = eid) ?_ fuel _ _ _ rs ?_ ?_ hs
        · intro pr hpr p hp
          rcases pr with ⟨k, lst⟩
          obtain ⟨lst2, hget2, _⟩ := hg.2 k lst (get_of_mem_nodup hg.1 hpr) p hp
          exact Or.inl (mem_keys_of_get hget2)
        · intro p hp
          rcases List.mem_singleton.mp hp with h3
          rw [h3]
          exact Or.inr rfl
        · intro p hp
          rcases List.mem_singleton.mp hp with h3
          rw [h3]
          exact Or.inr rfl
      intro a ha
      rw [h2, finalize_eq] at ha
      rcases mem_keys_setEntry ha with h3 | h3
      · rcases mem_keys_backedgeFold h3 with h4 | h4
        · exact Or.inl h4
        · rcases h4 with ⟨d, hd⟩
          rcases hids (d, a) (mem_sortLex hd) with h5 | h5
          · exact Or.inl h5
          · exact Or.inr (Or.inr h5)
      · exact Or.inr (Or.inl h3)

theorem insertLoop_good (cache : Cache) (emb : Embedding) (fuel : Nat)
    (entry : Option Nat) (thr : List ℚ) (prob : ℚ) (S : Nat → Prop)
    (hS : S emb.id) (hE : ∀ e, entry = some e → S e) :
    ∀ (layers : List Graph) (j : Nat) (layers2 : List Graph),
      (∀ L ∈ layers, GoodLayer L) →
      (∀ L ∈ layers, Graph.get L emb.id = none) →
      (∀ L ∈ layers, ∀ a ∈ L.map Prod.fst, S a) →
      insertLoop cache emb fuel entry thr prob j layers = some layers2 →
      (∀ L ∈ layers2, GoodLayer L) ∧
      (∀ L ∈ layers2, ∀ a ∈ L.map Prod.fst, S a) := by
  intro layers
  induction layers with
  | nil =>
      intro j layers2 _ _ _ h
      rw [insertLoop] at h
      cases h
      exact ⟨fun L hL => absurd hL (List.not_mem_nil L),
        fun L hL => absurd hL (List.not_mem_nil L)⟩
  | cons layer rest ih =>
      intro j layers2 hgood hfresh hkeys h
      have hgl : GoodLayer layer := hgood layer (List.mem_cons_self _ _)
      have hfl : Graph.get layer emb.id = none := hfresh layer (List.mem_cons_self _ _)
      have hkl : ∀ a ∈ layer.map Prod.fst, S a := hkeys layer (List.mem_cons_self _ _)
      rw [insertLoop] at h
      rcases ht : thr.get? j with _ | t
      · rw [ht] at h
        cases h
      · simp only [ht] at h
        have hSeid : S (entry.getD emb.id) := by
          rcases he : entry with _ | e
          · rw [Option.getD_none]
            exact hS
          · rw [Option.getD_some]
            exact hE e he
        have hstep : ∀ layer2,
            (if (decide (prob < t) || entry.isNone) = true then
              insert_into_layer cache (entry.getD emb.id) layer emb 200 fuel
            else some layer) = some layer2 →
            GoodLayer layer2 ∧ ∀ a ∈ layer2.map Prod.fst, S a := by
          intro layer2 hstep
          by_cases hcond : (decide (prob < t) || entry.isNone) = true
          · rw [if_pos hcond] at hstep
            refine ⟨insert_into_layer_good hgl hfl hstep, ?_⟩
            intro a ha
            rcases insert_into_layer_keys hgl hstep a ha with h1 | h1 | h1
            · exact hkl a h1
            · rw [h1]
              exact hS
            · rw [h1]
              exact hSeid
          · rw [if_neg hcond] at hstep
            cases hstep
            exact ⟨hgl, hkl⟩
        rcases hls : (if (decide (prob < t) || entry.isNone) = true then
            insert_into_layer cache (entry.getD emb.id) layer emb 200 fuel
          else some layer) with _ | layer2
        · rw [hls] at h
          cases h
        · rw [hls] at h
          rcases hrec : insertLoop cache emb fuel entry thr prob (j + 1) rest with
            _ | rest2
          · rw [hrec] at h
            cases h
          · rw [hrec] at h
            cases h
            obtain ⟨hg2, hk2⟩ := ih (j + 1) rest2
              (fun L hL => hgood L (List.mem_cons_of_mem _ hL))
              (fun L hL => hfresh L (List.mem_cons_of_mem _ hL))
              (fun L hL => hkeys L (List.mem_cons_of_mem _ hL)) hrec
            obtain ⟨hgl2, hkl2⟩ := hstep layer2 hls
            constructor
            · intro L hL
              rcases List.mem_cons.mp hL with h1 | h1
              · rw [h1]
                exact hgl2
              · exact hg2 L h1
            · intro L hL
              rcases List.mem_cons.mp hL with h1 | h1
              · rw [h1]
                exact hkl2
              · exact hk2 L h1

theorem insertOp_good (cache : Cache) (prob : ℚ) (emb : Embedding) (fuel : Nat)
    (s s' : HNSWState) (S : Nat → Prop)
    (hgood : ∀ L ∈ s.layers, GoodLayer L)
    (hfresh : ∀ L ∈ s.layers, Graph.get L emb.id = none)
    (hentry : ∀ e, s.entry_id = some e → emb.id ≠ e)
    (hS : S emb.id) (hE : ∀ e, s.entry_id = some e → S e)
    (hkeys : ∀ L ∈ s.layers, ∀ a ∈ L.map Prod.fst, S a)
    (h : insertOp cache prob emb fuel s = some s') :
    (∀ L ∈ s'.layers, GoodLayer L) ∧
    (∀ L ∈ s'.layers, ∀ a ∈ L.map Prod.fst, S a) ∧
    (∀ e, s'.entry_id = some e → S e) := by
  have hEntryS : ∀ e, some (s.entry_id.getD emb.id) = some e → S e := by
    intro e he
    cases he
    rcases h2 : s.entry_id with _ | e0
    · rw [Option.getD_none]
      exact hS
    · rw [Option.getD_some]
      exact hE e0 h2
  have htail : ∀ (layers0 : List Graph) (thr0 : List ℚ) (layers1 : List Graph),
      (∀ L ∈ layers0, GoodLayer L) →
      (∀ L ∈ layers0, Graph.get L emb.id = none) →
      (∀ L ∈ layers0, ∀ a ∈ L.map Prod.fst, S a) →
      insertLoop cache emb fuel s.entry_id thr0 prob 0 layers0 = some layers1 →
      (∀ L ∈ layers1, GoodLayer L) ∧
      (∀ L ∈ layers1, ∀ a ∈ L.map Prod.fst, S a) := by
    intro layers0 thr0 layers1 hg0 hf0 hk0 hil
    exact insertLoop_good cache emb fuel s.entry_id thr0 prob S hS hE layers0 0
      layers1 hg0 hf0 hk0 hil
  have happ : ∀ (nl : Graph), GoodLayer nl → Graph.get nl emb.id = none →
      (∀ a ∈ nl.map Prod.fst, S a) →
      (∀ L ∈ s.layers ++ [nl], GoodLayer L) ∧
      (∀ L ∈ s.layers ++ [nl], Graph.get L emb.id = none) ∧
      (∀ L ∈ s.layers ++ [nl], ∀ a ∈ L.map Prod.fst, S a) := by
    intro nl h1 h2 h3
    refine ⟨?_, ?_, ?_⟩
    · intro L hL
      rcases List.mem_append.mp hL with h4 | h4
      · exact hgood L h4
      · rw [List.mem_singleton.mp h4]
        exact h1
    · intro L hL
      rcases List.mem_append.mp hL with h4 | h4
      · exact hfresh L h4
      · rw [List.mem_singleton.mp h4]
        exact h2
    · intro L hL
      rcases List.mem_append.mp hL with h4 | h4
      · exact hkeys L h4
      · rw [List.mem_singleton.mp h4]
        exact h3
  rw [insertOp] at h
  split at h
  · cases h
  · rename_i grow heq
    split at h
    · rename_i hgrow
      split at h
      · rename_i e hent
        simp only [] at h
        split at h
        · cases h
        · rename_i layers1 hloop
          cases h
          obtain ⟨hA, hB, hC⟩ := happ [(e, [])] (goodLayer_single e)
            (by rw [get_cons, if_neg (fun hc => hentry e hent hc.symm)]; rfl)
            (by
              intro a ha
              simp only [List.map_cons, List.map_nil, List.mem_singleton] at ha
              rw [ha]
              exact hE e hent)
          obtain ⟨hg1, hk1⟩ := htail _ _ layers1 hA hB hC hloop
          exact ⟨hg1, hk1, hEntryS⟩
      · rename_i hent
        simp only [] at h
        split at h
        · cases h
        · rename_i layers1 hloop
          cases h
          obtain ⟨hA, hB, hC⟩ := happ [] goodLayer_nil rfl
            (fun a ha => absurd ha (List.not_mem_nil a))
          obtain ⟨hg1, hk1⟩ := htail _ _ layers1 hA hB hC hloop
          exact ⟨hg1, hk1, hEntryS⟩
    · simp only [] at h
      split at h
      · cases h
      · rename_i layers1 hloop
        cases h
        obtain ⟨hg1, hk1⟩ := htail _ _ layers1 hgood hfresh hkeys hloop
        exact ⟨hg1, hk1, hEntryS⟩

theorem filter_idem (p : α → Bool) (l : List α) :
    (l.filter p).filter p = l.filter p := by
  induction l with
  | nil => rfl
  | cons x xs ih =>
      by_cases hx : p x = true
      · simp [List.filter_cons, hx, ih]
      · simp [List.filter_cons, hx, ih]

theorem get_dropKey_self (t : Nat) (L : Graph) : Graph.get (dropKey t L) t = none := by
  induction L with
  | nil => rfl
  | cons hd rest ih =>
      rcases hd with ⟨k, lst⟩
      rw [dropKey, List.filter_cons]
      by_cases hk : k = t
      · rw [if_neg (by simp [hk])]
        exact ih
      · rw [if_pos (by simp [hk])]
        rw [get_cons, if_neg hk]
        exact ih

theorem get_dropKey_other {t a : Nat} (L : Graph) (ha : a ≠ t) :
    Graph.get (dropKey t L) a = Graph.get L a := by
  induction L with
  | nil => rfl
  | cons hd rest ih =>
      rcases hd with ⟨k, lst⟩
      rw [dropKey, List.filter_cons]
      by_cases hk : k = t
      · rw [if_neg (by simp [hk])]
        rw [get_cons, if_neg (fun hc => ha (hc.symm.trans hk))]
        exact ih
      · rw [if_pos (by simp [hk])]
        rw [get_cons, get_cons]
        by_cases hka : k = a
        · rw [if_pos hka, if_pos hka]
        · rw [if_neg hka, if_neg hka]
          exact ih

theorem nodup_dropKey {t : Nat} {L : Graph} (hnd : NodupKeys L) :
    NodupKeys (dropKey t L) :=
  hnd.sublist ((List.filter_sublist L).map Prod.fst)

theorem mem_dropKey {t : Nat} {L : Graph} {pr : Nat × List (Nat × ℚ)}
    (h : pr ∈ dropKey t L) : pr ∈ L ∧ pr.1 ≠ t := by
  rw [dropKey, List.mem_filter] at h
  exact ⟨h.1, by simpa using h.2⟩

theorem removeEdges_nodup {t : Nat} :
    ∀ (todo : List (Nat × ℚ)) (L L' : Graph), NodupKeys L →
      removeEdges t todo L = some L' → NodupKeys L' := by
  intro todo
  induction todo with
  | nil =>
      intro L L' hnd h
      rw [removeEdges] at h
      cases h
      exact hnd
  | cons hd rest ih =>
      rcases hd with ⟨nbr, d⟩
      intro L L' hnd h
      rw [removeEdges] at h
      rcases hg : Graph.get L nbr with _ | lst
      · simp only [hg] at h
        cases h
      · simp only [hg] at h
        exact ih _ _ (nodup_setEntry hnd) h

theorem removeEdges_get_unchanged {t a : Nat} :
    ∀ (todo : List (Nat × ℚ)) (L L' : Graph),
      removeEdges t todo L = some L' → (∀ pr ∈ todo, pr.1 ≠ a) →
      Graph.get L' a = Graph.get L a := by
  intro todo
  induction todo with
  | nil =>
      intro L L' h _
      rw [removeEdges] at h
      cases h
      rfl
  | cons hd rest ih =>
      rcases hd with ⟨nbr, d⟩
      intro L L' h hne
      rw [removeEdges] at h
      rcases hg : Graph.get L nbr with _ | lst
      · simp only [hg] at h
        cases h
      · simp only [hg] at h
        have h2 := ih _ _ h (fun pr hpr => hne pr (List.mem_cons_of_mem _ hpr))
        rw [h2]
        exact setEntry_get_other L nbr a _
          (fun hc => hne (nbr, d) (List.mem_cons_self _ _) hc.symm)

theorem removeEdges_get_sub {t : Nat} :
    ∀ (todo : List (Nat × ℚ)) (L L' : Graph) (a : Nat) (la' : List (Nat × ℚ)),
      removeEdges t todo L = some L' → Graph.get L' a = some la' →
      ∃ la, Graph.get L a = some la ∧ ∀ p ∈ la', p ∈ la := by
  intro todo
  induction todo with
  | nil =>
      intro L L' a la' h hget
      rw [removeEdges] at h
      cases h
      exact ⟨la', hget, fun p hp => hp⟩
  | cons hd rest ih =>
      rcases hd with ⟨nbr, d⟩
      intro L L' a la' h hget
      rw [removeEdges] at h
      rcases hg : Graph.get L nbr with _ | lst
      · simp only [hg] at h
        cases h
      · simp only [hg] at h
        obtain ⟨la1, hget1, hsub1⟩ := ih _ _ a la' h hget
        by_cases ha : a = nbr
        · rw [ha, setEntry_get_self] at hget1
          cases hget1
          refine ⟨lst, by rw [ha]; exact hg, ?_⟩
          intro p hp
          exact List.mem_of_mem_filter (hsub1 p hp)
        · rw [setEntry_get_other L nbr a _ ha] at hget1
          exact ⟨la1, hget1, hsub1⟩

theorem removeEdges_get_filtered {t : Nat} :
    ∀ (todo : List (Nat × ℚ)) (L L' : Graph) (b : Nat),
      removeEdges t todo L = some L' → (∃ pr ∈ todo, pr.1 = b) →
      ∀ lb, Graph.get L b = some lb →
        Graph.get L' b = some (lb.filter fun p => p.1 ≠ t) := by
  intro todo
  induction todo with
  | nil =>
      intro L L' b _ hex
      rcases hex with ⟨pr, hpr, _⟩
      cases hpr
  | cons hd rest ih =>
      rcases hd with ⟨nbr, d⟩
      intro L L' b h hex lb hlb
      rw [removeEdges] at h
      rcases hg : Graph.get L nbr with _ | lst
      · simp only [hg] at h
        cases h
      · simp only [hg] at h
        by_cases hb : b = nbr
        · have hlst : lst = lb := by
            rw [hb] at hlb
            exact Option.some_inj.mp (hg.symm.trans hlb)
          by_cases hex2 : ∃ pr ∈ rest, pr.1 = b
          · have hset : Graph.get
                (Graph.setEntry L nbr (lst.filter fun p => p.1 ≠ t)) b =
                some (lb.filter fun p => p.1 ≠ t) := by
              rw [hb, setEntry_get_self, hlst]
            have h3 := ih _ _ b h hex2 _ hset
            rw [filter_idem] at h3
            exact h3
          · have hne : ∀ pr ∈ rest, pr.1 ≠ b := by
              intro pr hpr hc
              exact hex2 ⟨pr, hpr, hc⟩
            rw [removeEdges_get_unchanged rest _ _ h hne, hb, setEntry_get_self, hlst]
        · have hex2 : ∃ pr ∈ rest, pr.1 = b := by
            rcases hex with ⟨pr, hpr, hfst⟩
            rcases List.mem_cons.mp hpr with h1 | h1
            · exfalso
              rw [h1] at hfst
              exact hb hfst.symm
            · exact ⟨pr, h1, hfst⟩
          refine ih _ _ b h hex2 lb ?_
          rw [setEntry_get_other L nbr b _ hb]
          exact hlb

theorem removeNodeLayer_complete {t : Nat} {L L1 : Graph} (hg : GoodLayer L)
    (h : removeNodeLayer t L = some L1) :
    Graph.get (dropKey t L1) t = none ∧
    ∀ pr ∈ dropKey t L1, ∀ p ∈ pr.2, p.1 ≠ t := by
  rcases hg with ⟨hnd, hsym⟩
  refine ⟨get_dropKey_self t L1, ?_⟩
  rw [removeNodeLayer] at h
  rcases hLt : Graph.get L t with _ | lstT
  · simp only [hLt] at h
    cases h
    intro pr hpr p hp hc
    obtain ⟨hprL, hprne⟩ := mem_dropKey hpr
    rcases pr with ⟨a, la⟩
    have hget := get_of_mem_nodup hnd hprL
    obtain ⟨lst2, hget2, _⟩ := hsym a la hget p hp
    rw [hc, hLt] at hget2
    cases hget2
  · simp only [hLt] at h
    intro pr hpr p hp hc
    obtain ⟨hprL1, hprne⟩ := mem_dropKey hpr
    rcases pr with ⟨a, la⟩
    have hnd1 : NodupKeys L1 := removeEdges_nodup _ _ _ hnd h
    have hget1 : Graph.get L1 a = some la := get_of_mem_nodup hnd1 hprL1
    by_cases hex : ∃ q ∈ lstT, q.1 = a
    · obtain ⟨la0, hgetL, hsub⟩ := removeEdges_get_sub _ _ _ a la h hget1
      have hfil := removeEdges_get_filtered _ _ _ a h hex la0 hgetL
      rw [hget1] at hfil
      have hla : la = la0.filter fun p => p.1 ≠ t := Option.some_inj.mp hfil
      rw [hla] at hp
      have h4 := List.of_mem_filter hp
      simp only [decide_eq_true_eq] at h4
      exact h4 hc
    · have hne : ∀ q ∈ lstT, q.1 ≠ a := fun q hq hqc => hex ⟨q, hq, hqc⟩
      have hunch := removeEdges_get_unchanged _ _ _ h hne
      rw [hget1] at hunch
      obtain ⟨lst2, hget2, hmem2⟩ := hsym a la hunch.symm p hp
      rw [hc, hLt] at hget2
      cases hget2
      exact hne (a, p.2) hmem2 rfl

theorem removeNodeLayer_good {t : Nat} {L L1 : Graph} (hg : GoodLayer L)
    (h : removeNodeLayer t L = some L1) : GoodLayer (dropKey t L1) := by
  have hcomp := removeNodeLayer_complete hg h
  rcases hg with ⟨hnd, hsym⟩
  rw [removeNodeLayer] at h
  rcases hLt : Graph.get L t with _ | lstT
  · simp only [hLt] at h
    cases h
    refine ⟨nodup_dropKey hnd, ?_⟩
    intro a la hget p hp
    have ha : a ≠ t := by
      intro hc
      rw [hc, get_dropKey_self] at hget
      cases hget
    rw [get_dropKey_other L ha] at hget
    obtain ⟨lb, hgetb, hmemb⟩ := hsym a la hget p hp
    have hb : p.1 ≠ t := by
      intro hc
      rw [hc, hLt] at hgetb
      cases hgetb
    refine ⟨lb, ?_, hmemb⟩
    rw [get_dropKey_other L hb]
    exact hgetb
  · simp only [hLt] at h
    have hnd1 : NodupKeys L1 := removeEdges_nodup _ _ _ hnd h
    refine ⟨nodup_dropKey hnd1, ?_⟩
    intro a la hget p hp
    rcases p with ⟨b, d⟩
    have ha : a ≠ t := by
      intro hc
      rw [hc, get_dropKey_self] at hget
      cases hget
    have hget1 : Graph.get L1 a = some la := by
      have h2 := hget
      rw [get_dropKey_other L1 ha] at h2
      exact h2
    have hb : b ≠ t := hcomp.2 (a, la) (Graph.get_mem hget) (b, d) hp
    obtain ⟨la0, hgetL, hsub⟩ := removeEdges_get_sub _ _ _ a la h hget1
    obtain ⟨lb, hgetb, hmemb⟩ := hsym a la0 hgetL (b, d) (hsub (b, d) hp)
    by_cases hexb : ∃ q ∈ lstT, q.1 = b
    · have hfil := removeEdges_get_filtered _ _ _ b h hexb lb hgetb
      refine ⟨lb.filter fun p => p.1 ≠ t, ?_, ?_⟩
      · rw [get_dropKey_other L1 hb]
        exact hfil
      · refine List.mem_filter.mpr ⟨hmemb, ?_⟩
        simp [ha]
    · have hne : ∀ q ∈ lstT, q.1 ≠ b := fun q hq hqc => hexb ⟨q, hq, hqc⟩
      have hunch := removeEdges_get_unchanged _ _ _ h hne
      refine ⟨lb, ?_, hmemb⟩
      rw [get_dropKey_other L1 hb, hunch]
      exact hgetb

theorem optMapList_forall {f : α → Option β} :
    ∀ (xs : List α) (ys : List β), optMapList f xs = some ys →
      ∀ y ∈ ys, ∃ x ∈ xs, f x = some y := by
  intro xs
  induction xs with
  | nil =>
      intro ys h y hy
      rw [optMapList] at h
      cases h
      cases hy
  | cons x rest ih =>
      intro ys h y hy
      rw [optMapList] at h
      rcases hf : f x with _ | y0
      · simp only [hf] at h
        cases h
      · simp only [hf] at h
        rcases hrec : optMapList f rest with _ | ys0
        · simp only [hrec] at h
          cases h
        · simp only [hrec] at h
          cases h
          rcases List.mem_cons.mp hy with h1 | h1
          · exact ⟨x, List.mem_cons_self _ _, by rw [h1]; exact hf⟩
          · obtain ⟨x2, hx2, hfx2⟩ := ih ys0 hrec y h1
            exact ⟨x2, List.mem_cons_of_mem _ hx2, hfx2⟩

theorem removeOp_good {t : Nat} {s s' : HNSWState}
    (hgood : ∀ L ∈ s.layers, GoodLayer L) (h : removeOp t s = some s') :
    ∀ L ∈ s'.layers, GoodLayer L := by
  rw [removeOp] at h
  by_cases h0 : s.size = 0
  · rw [if_pos h0] at h
    cases h
  · rw [if_neg h0] at h
    rcases hmap : optMapList (removeNodeLayer t) s.layers with _ | layers1
    · simp only [hmap] at h
      cases h
    · simp only [hmap] at h
      cases h
      intro L hL
      rcases List.mem_map.mp hL with ⟨L1, hL1, hLe⟩
      obtain ⟨L0, hL0, hrem⟩ := optMapList_forall _ _ hmap L1 hL1
      rw [← hLe]
      exact removeNodeLayer_good (hgood L0 hL0) hrem

theorem buildLoop_good (cache : Cache) (fuel : Nat) (thr : List ℚ) :
    ∀ (idprobs : List (Nat × ℚ)) (S : Nat → Prop) (entry : Option Nat)
      (layers : List Graph) (out : List Graph × Option Nat),
      (∀ L ∈ layers, GoodLayer L) →
      (∀ L ∈ layers, ∀ a ∈ L.map Prod.fst, S a) →
      (∀ e, entry = some e → S e) →
      (idprobs.map Prod.fst).Nodup →
      (∀ pr ∈ idprobs, (cache pr.1).id = pr.1) →
      (∀ pr ∈ idprobs, ¬ S pr.1) →
      buildLoop cache fuel thr idprobs entry layers = some out →
      ∀ L ∈ out.1, GoodLayer L := by
  intro idprobs
  induction idprobs with
  | nil =>
      intro S entry layers out hg hk hE _ _ _ h
      rw [buildLoop] at h
      cases h
      exact hg
  | cons pr rest ih =>
      rcases pr with ⟨id, prob⟩
      intro S entry layers out hg hk hE hnd hfa hnS h
      rw [buildLoop] at h
      rcases hil : insertLoop cache (cache id) fuel entry thr prob 0 layers with
        _ | layers2
      · simp only [hil] at h
        cases h
      · simp only [hil] at h
        have hid : (cache id).id = id := hfa (id, prob) (List.mem_cons_self _ _)
        have hfresh : ∀ L ∈ layers, Graph.get L (cache id).id = none := by
          intro L hL
          rcases hx : Graph.get L (cache id).id with _ | lst
          · rfl
          · exfalso
            have h3 : S (cache id).id := hk L hL _ (mem_keys_of_get hx)
            rw [hid] at h3
            exact hnS (id, prob) (List.mem_cons_self _ _) h3
        have hnd2 : (id :: rest.map Prod.fst).Nodup := by simpa using hnd
        obtain ⟨hg2, hk2⟩ := insertLoop_good cache (cache id) fuel entry thr prob
          (fun a => S a ∨ a = id) (Or.inr hid)
          (fun e he => Or.inl (hE e he)) layers 0 layers2 hg hfresh
          (fun L hL a ha => Or.inl (hk L hL a ha)) hil
        refine ih (fun a => S a ∨ a = id) (some (entry.getD (cache id).id)) layers2 out
          hg2 hk2 ?_ ?_ ?_ ?_ h
        · intro e he
          cases he
          rcases hen : entry with _ | e0
          · rw [Option.getD_none]
            exact Or.inr hid
          · rw [Option.getD_some]
            exact Or.inl (hE e0 hen)
        · exact (List.nodup_cons.mp hnd2).2
        · exact fun q hq => hfa q (List.mem_cons_of_mem _ hq)
        · intro q hq hc
          rcases hc with hc | hc
          · exact hnS q (List.mem_cons_of_mem _ hq) hc
          · exact (List.nodup_cons.mp hnd2).1 (List.mem_map.mpr ⟨q, hq, hc⟩)

theorem buildOp_good {cache : Cache} {fuel : Nat} {idprobs : List (Nat × ℚ)}
    {s' : HNSWState} (hnd : (idprobs.map Prod.fst).Nodup)
    (hfa : ∀ pr ∈ idprobs, (cache pr.1).id = pr.1)
    (h : buildOp cache fuel idprobs = some s') : ∀ L ∈ s'.layers, GoodLayer L := by
  rw [buildOp] at h
  by_cases h0 : idprobs = []
  · rw [if_pos h0] at h
    cases h
    intro L hL
    cases hL
  · rw [if_neg h0] at h
    simp only [] at h
    split at h
    · cases h
    · rename_i layers entry hbl
      cases h
      intro L hL
      refine buildLoop_good cache fuel _ idprobs (fun _ => False) none
        (List.replicate (ilog2 idprobs.length) []) (layers, entry) ?_ ?_ ?_ hnd hfa
        (fun pr _ hc => hc) hbl L hL
      · intro L2 hL2
        rw [List.eq_of_mem_replicate hL2]
        exact goodLayer_nil
      · intro L2 hL2 a ha
        rw [List.eq_of_mem_replicate hL2] at ha
        cases ha
      · intro e he
        cases he

theorem reachable_good {cache : Cache} {s : HNSWState} (h : Reachable cache s) :
    ∀ L ∈ s.layers, GoodLayer L := by
  induction h with
  | empty =>
      intro L hL
      cases hL
  | insert prob emb fuel hr hfresh hent hop ih =>
      exact (insertOp_good cache prob emb fuel _ _ (fun _ => True) ih hfresh hent
        trivial (fun _ _ => trivial) (fun _ _ _ _ => trivial) hop).1
  | remove t hr hop ih =>
      exact removeOp_good ih hop
  | build idprobs fuel hnodup hfaith hop =>
      exact buildOp_good hnodup hfaith hop

/-- Claim C4 (confirmed). For every index state reachable by build, insert, and remove,
after `HNSW::remove_node(x)` returns no layer of the index references `x`: `x` is not a
key of any layer map, and no `(neighbor, distance)` entry of any other node's neighbor
list points at `x`. The two erasure phases of `remove_node` suffice because every
reachable state satisfies graph symmetry — each stored edge has its reverse edge — so
every node referencing `x` appears in `x`'s own neighbor list and loses its edge in
phase one, and phase two deletes `x`'s key. -/
theorem claim_C4 (cache : Cache) (s s' : HNSWState) (x : Nat)
    (hr : Reachable cache s) (h : removeOp x s = some s') :
    ∀ layer ∈ s'.layers, Graph.get layer x = none ∧
      ∀ pr ∈ layer, ∀ p ∈ pr.2, p.1 ≠ x := by
  have hgood := reachable_good hr
  rw [removeOp] at h
  by_cases h0 : s.size = 0
  · rw [if_pos h0] at h
    cases h
  · rw [if_neg h0] at h
    rcases hmap : optMapList (removeNodeLayer x) s.layers with _ | layers1
    · simp only [hmap] at h
      cases h
    · simp only [hmap] at h
      cases h
      intro layer hmem
      rcases List.mem_map.mp hmem with ⟨L1, hL1, hLe⟩
      obtain ⟨L0, hL0, hrem⟩ := optMapList_forall _ _ hmap L1 hL1
      rw [← hLe]
      exact removeNodeLayer_complete (hgood L0 hL0) hrem

/-- Witness for claim C4: in the index built by inserting the embeddings with ids 1, 2,
and 3, removing node 2 leaves a layer that neither has 2 as a key nor contains any edge
pointing at 2. -/
theorem claim_C4_witness :
    Graph.get [(1, [(3, mkRat 2 5)]), (3, [(1, mkRat 2 5)])] 2 = none ∧
    ∀ pr ∈ [(1, [(3, mkRat 2 5)]), (3, [(1, mkRat 2 5)])], ∀ p ∈ pr.2, p.1 ≠ 2 :=
  claim_C4 scratchGCache
    ⟨3, [[(1, [(2, 1), (3, mkRat 2 5)]), (2, [(1, 1), (3, mkRat 1 5)]),
      (3, [(2, mkRat 1 5), (1, mkRat 2 5)])]], some 1, [1]⟩
    ⟨2, [[(1, [(3, mkRat 2 5)]), (3, [(1, mkRat 2 5)])]], some 1, [1]⟩ 2
    (@Reachable.insert scratchGCache
      ⟨2, [[(1, [(2, 1)]), (2, [(1, 1)])]], some 1, [1]⟩
      ⟨3, [[(1, [(2, 1), (3, mkRat 2 5)]), (2, [(1, 1), (3, mkRat 1 5)]),
        (3, [(2, mkRat 1 5), (1, mkRat 2 5)])]], some 1, [1]⟩ 0 scratchG3 50
      (@Reachable.insert scratchGCache ⟨1, [[(1, [])]], some 1, [1]⟩
        ⟨2, [[(1, [(2, 1)]), (2, [(1, 1)])]], some 1, [1]⟩ 0 scratchG2 50
        (@Reachable.insert scratchGCache ⟨0, [], none, []⟩
          ⟨1, [[(1, [])]], some 1, [1]⟩ 0 scratchG1 50 Reachable.empty
          (by decide) (by decide) (by decide))
        (by decide) (by decide) (by decide))
      (by decide) (by decide) (by decide))
    (by decide)
    [(1, [(3, mkRat 2 5)]), (3, [(1, mkRat 2 5)])] (List.mem_singleton_self _)

end Chamber
